import Mathlib

/-!
Verification of the hacspec KZG zero-knowledge set-membership library.

The protocol code (`src/src/lib.rs`) is generic over a pairing-curve
back-end, exactly as the Rust source is generic over its `Curve` trait.
We embed the protocol shallowly: the back-end capabilities become a
`Curve` record of operations over abstract carrier types, machine words
from the caller-supplied randomness pool become natural numbers, popping
from the end of a `Vec` becomes `vpop`, and the Rust panics on an
exhausted pool, an empty polynomial or a too-short basis become `Option`.
Scalars carry a commutative-ring structure, as both back-ends interpret
them in the BLS12-381 scalar field.  Group-level facts are proved under
an explicit `CurveAxioms` hypothesis collecting the algebraic laws the
real back-ends satisfy.
-/

namespace KZG

/-- Capability record for a pairing-friendly curve back-end, following the
`Curve` trait exactly as `src/src/lib.rs` consumes it: groups `G1`, `G2`,
target group `GT`, scalars `R`, group operations, the two generators, a
pairing, and a Fiat-Shamir hash of four `G1` points. -/
structure Curve (R G1 G2 GT : Type) where
  g1mul : R → G1 → G1
  g2mul : R → G2 → G2
  g1add : G1 → G1 → G1
  g2add : G2 → G2 → G2
  g1sub : G1 → G1 → G1
  g2sub : G2 → G2 → G2
  g1 : G1
  g2 : G2
  pairing : G1 → G2 → GT
  fiat_shamir_hash : G1 → G1 → G1 → G1 → R

variable {R G1 G2 GT : Type}

/-- Rust `T::scalar_from_literal`: a machine word cast into the scalar field. -/
def scalar_from_literal [CommRing R] (x : ℕ) : R := x

/-- Rust `T::scalar_pow`: scalar exponentiation by a machine word. -/
def scalar_pow [CommRing R] (x : R) (y : ℕ) : R := x ^ y

/-- Rust `Vec::pop`: remove and return the last element of the vector. -/
def vpop {α : Type} (l : List α) : Option (α × List α) :=
  match l.getLast? with
  | none => none
  | some x => some (x, l.dropLast)

/-- Public parameters produced by `setup` (lib.rs 126-131). -/
structure Pk (R G1 G2 : Type) where
  g_powers : List G1
  h_powers : List G1
  h1 : G1
  alpha_g2 : G2
deriving DecidableEq

/-- `setup` (lib.rs 154-177): pops α, then λ with h = λ·g, from the end of
the randomness pool, builds the `g` and `h` power bases indexed by
`α^(degree-i)` and computes `α·g₂`.  The remaining pool is returned
alongside, modelling the in-place mutation of the `Vec`. -/
def setup [CommRing R] (C : Curve R G1 G2 GT) (degree : ℕ) (random : List ℕ) :
    Option (Pk R G1 G2 × List ℕ) :=
  match vpop random with
  | none => none
  | some (rand, random) =>
    let alpha : R := scalar_from_literal rand
    match vpop random with
    | none => none
    | some (rand2, random) =>
      let h := C.g1mul (scalar_from_literal rand2) C.g1
      let setup_g1 := (List.range (degree + 1)).map fun i =>
        C.g1mul (scalar_pow alpha (degree - i)) C.g1
      let setup_h1 := (List.range (degree + 1)).map fun i =>
        C.g1mul (scalar_pow alpha (degree - i)) h
      some (⟨setup_g1, setup_h1, h, C.g2mul alpha C.g2⟩, random)

/-- `apply` (lib.rs 413-423): evaluate a high-degree-first polynomial,
`Σᵢ polynomial[len-1-i] · x^i`. -/
def applyP [CommRing R] (polynomial : List R) (x : R) : R :=
  (List.range polynomial.length).foldl
    (fun result i =>
      result + polynomial.getD (polynomial.length - 1 - i) 0 * scalar_pow x i)
    (scalar_from_literal 0)

/-- `multiply` (lib.rs 426-436): schoolbook polynomial product of length
`|f| + |g| - 1`; entry `k` accumulates `f[i]·g[k-i]` in the source's
ascending loop order on `i`. -/
def multiply [CommRing R] (f g : List R) : List R :=
  (List.range (f.length + g.length - 1)).map fun k =>
    (List.range f.length).foldl
      (fun acc i =>
        if i ≤ k ∧ k - i < g.length then acc + f.getD i 0 * g.getD (k - i) 0
        else acc)
      (scalar_from_literal 0)

/-- Division loop of `create_psi` (lib.rs 446-453): `q[0] = r[0]`,
`q[i+1] = q[i]·x0 + r[i+1]`. -/
def psiQ [CommRing R] (r : List R) (x0 : R) : List R :=
  match r with
  | [] => []
  | r0 :: rt => List.scanl (fun qi ri => qi * x0 + ri) r0 rt

/-- `create_psi` (lib.rs 438-458): replace the last coefficient of `f` by
`f[last] - f_x0`, divide synthetically by `(x - x0)`, and drop the final
remainder term unconditionally (`q.pop()`).  `none` models the Rust panic
on an empty polynomial. -/
def create_psi [CommRing R] (f : List R) (f_x0 x0 : R) : Option (List R) :=
  match f.getLast? with
  | none => none
  | some fl => some ((psiQ (f.dropLast ++ [fl - f_x0]) x0).dropLast)

/-- `commit_poly` (lib.rs 398-410): left-to-right accumulation of
`polynomial[i] · pk[pk.len - polynomial.len + i]` on top of the seed
`0 · generator`; the dropped prefix of the basis realises the index
shift.  `none` models the Rust panic when the basis is shorter than the
polynomial. -/
def commit_poly [CommRing R] (C : Curve R G1 G2 GT) (polynomial : List R)
    (pk : List G1) (generator : G1) : Option G1 :=
  if polynomial.length ≤ pk.length then
    some ((List.zipWith C.g1mul polynomial
        (pk.drop (pk.length - polynomial.length))).foldl C.g1add
      (C.g1mul (scalar_from_literal 0) generator))
  else none

/-- `create_witness` (lib.rs 461-475): evaluates φ and φ̂ at the query
point, divides both by `(x - i)`, and commits the two quotients. -/
def create_witness [CommRing R] (C : Curve R G1 G2 GT) (phi phi_hat : List R)
    (i : R) (pk : Pk R G1 G2) : Option (R × R × R × G1) :=
  let phi_i := applyP phi i
  let phi_hat_i := applyP phi_hat i
  match create_psi phi phi_i i with
  | none => none
  | some psi =>
    match create_psi phi_hat phi_hat_i i with
    | none => none
    | some psi_hat =>
      match commit_poly C psi pk.g_powers C.g1 with
      | none => none
      | some w1 =>
        match commit_poly C psi_hat pk.h_powers pk.h1 with
        | none => none
        | some w2 => some (i, phi_i, phi_hat_i, C.g1add w1 w2)

/-- Hiding-polynomial sampling loop of `commitzk` (lib.rs 219-225): one
popped word per coefficient, index 0 filled by the first pop. -/
def sample_coeffs (R : Type) [CommRing R] (n : ℕ) (random : List ℕ) :
    Option (List R × List ℕ) :=
  match n with
  | 0 => some ([], random)
  | Nat.succ m =>
    match vpop random with
    | none => none
    | some (rand, random) =>
      match sample_coeffs R m random with
      | none => none
      | some (rest, random) => some (scalar_from_literal rand :: rest, random)

/-- `commitzk` (lib.rs 206-232): builds the set polynomial
`φ = Π_{k ∈ set} (x - k)` by folding `multiply` over the set, samples the
hiding polynomial φ̂ of the same length, and returns the hiding commitment
`commit(φ, g_powers) + commit(φ̂, h_powers)` together with φ and φ̂. -/
def commitzk [CommRing R] (C : Curve R G1 G2 GT) (pk : Pk R G1 G2)
    (set : List R) (random : List ℕ) :
    Option ((G1 × List R × List R) × List ℕ) :=
  let phi := set.foldl
    (fun phi i =>
      multiply phi [scalar_from_literal 1, scalar_from_literal 0 - i])
    [scalar_from_literal 1]
  match sample_coeffs R phi.length random with
  | none => none
  | some (phi_hat, random) =>
    match commit_poly C phi pk.g_powers C.g1 with
    | none => none
    | some commitment =>
      match commit_poly C phi_hat pk.h_powers pk.h1 with
      | none => none
      | some hidingc =>
        some ((C.g1add commitment hidingc, phi, phi_hat), random)

/-- `schnorr_proof` (lib.rs 358-379): pops r₁ then r₂, commits
`N₁ = r₁·g`, `N₂ = r₂·h`, recomputes `Z = a·g + b·h`, derives the
Fiat-Shamir challenge and answers `s₁ = r₁ - c·a`, `s₂ = r₂ - c·b`. -/
def schnorr_proof [CommRing R] (C : Curve R G1 G2 GT) (pk : Pk R G1 G2)
    (a b : R) (random : List ℕ) : Option ((G1 × G1 × R × R) × List ℕ) :=
  match vpop random with
  | none => none
  | some (w1, random) =>
    match vpop random with
    | none => none
    | some (w2, random) =>
      let r1 : R := scalar_from_literal w1
      let r2 : R := scalar_from_literal w2
      let n1 := C.g1mul r1 C.g1
      let n2 := C.g1mul r2 pk.h1
      let z1 := C.g1mul a C.g1
      let z2 := C.g1mul b pk.h1
      let z := C.g1add z1 z2
      let c := C.fiat_shamir_hash z n1 n2 pk.h1
      let s1 := r1 - c * a
      let s2 := r2 - c * b
      some ((n1, n2, s1, s2), random)

/-- `schnorr_verify` (lib.rs 381-396): recomputes the challenge and checks
`s₁·g + s₂·h + c·z == n₁ + n₂`. -/
def schnorr_verify [CommRing R] [DecidableEq G1] (C : Curve R G1 G2 GT)
    (pk : Pk R G1 G2) (z n1 n2 : G1) (s1 s2 : R) : Bool :=
  let c := C.fiat_shamir_hash z n1 n2 pk.h1
  let left := C.g1add n1 n2
  let s1g := C.g1mul s1 C.g1
  let s2h := C.g1mul s2 pk.h1
  let zc := C.g1mul c z
  let right := C.g1add (C.g1add s1g s2h) zc
  decide (left = right)

/-- `queryzk` (lib.rs 265-284): produces the witness and, depending on set
membership of the queried element, either reveals φ̂(kⱼ) or produces the
non-membership transcript `(Z, N₁, N₂, s₁, s₂)`. -/
def queryzk [CommRing R] [DecidableEq R] (C : Curve R G1 G2 GT)
    (pk : Pk R G1 G2) (set : List R) (phi phi_hat : List R) (kj : R)
    (random : List ℕ) :
    Option ((R × G1 × Option R × Option (G1 × G1 × G1 × R × R)) × List ℕ) :=
  match create_witness C phi phi_hat kj pk with
  | none => none
  | some (kj, phi_kj, phi_hat_kj, witness) =>
    if kj ∈ set then some ((kj, witness, some phi_hat_kj, none), random)
    else
      let p1 := C.g1mul phi_kj C.g1
      let p2 := C.g1mul phi_hat_kj pk.h1
      let proof := C.g1add p1 p2
      match schnorr_proof C pk phi_kj phi_hat_kj random with
      | none => none
      | some ((n1, n2, s1, s2), random) =>
        some ((kj, witness, none, some (proof, n1, n2, s1, s2)), random)

/-- `verifyeval` (lib.rs 347-356): the evaluation pairing check
`e(W, α·g₂ - kⱼ·g₂) == e(C - (φ(kⱼ)·g + φ̂(kⱼ)·h), g₂)`. -/
def verifyeval [CommRing R] [DecidableEq GT] (C : Curve R G1 G2 GT)
    (pk : Pk R G1 G2) (commitment : G1) (kj phi_kj phi_hat_kj : R)
    (witness : G1) : Bool :=
  let left := C.pairing witness (C.g2sub pk.alpha_g2 (C.g2mul kj C.g2))
  let ys := C.g1add (C.g1mul phi_kj C.g1) (C.g1mul phi_hat_kj pk.h1)
  let right := C.pairing (C.g1sub commitment ys) C.g2
  decide (left = right)

/-- `verifyzk` (lib.rs 311-342): membership proofs go through `verifyeval`
with φ(kⱼ) treated as 0; non-membership proofs must pass the non-zero
check `N₁ ≠ s₁·g`, the Schnorr check, and the pairing check
`e(C - Z, g₂) == e(W, α·g₂ - kⱼ·g₂)`. -/
def verifyzk [CommRing R] [DecidableEq G1] [DecidableEq GT]
    (C : Curve R G1 G2 GT) (pk : Pk R G1 G2) (commitment : G1)
    (pi_sj : Option (G1 × G1 × G1 × R × R)) (kj : R) (witness : G1)
    (phi_hat_kj : Option R) : Bool :=
  match phi_hat_kj with
  | some v => verifyeval C pk commitment kj (scalar_from_literal 0) v witness
  | none =>
    match pi_sj with
    | none => false
    | some (proof, n1, n2, s1, s2) =>
      if n1 = C.g1mul s1 C.g1 then false
      else if !(schnorr_verify C pk proof n1 n2 s1 s2) then false
      else
        let left := C.pairing (C.g1sub commitment proof) C.g2
        let right :=
          C.pairing witness (C.g2sub pk.alpha_g2 (C.g2mul kj C.g2))
        decide (left = right)

/-- Algebraic laws of a curve back-end: the `G1` group laws and scalar
action, order-`r` injectivity of the exponent map on the generator, the
`G2` facts used on generator multiples, and bilinearity of the pairing in
the direction needed for completeness. -/
structure CurveAxioms [CommRing R] (C : Curve R G1 G2 GT) : Prop where
  g1add_comm : ∀ p q, C.g1add p q = C.g1add q p
  g1add_assoc : ∀ p q r, C.g1add (C.g1add p q) r = C.g1add p (C.g1add q r)
  g1mul_mul : ∀ (a b : R) p, C.g1mul a (C.g1mul b p) = C.g1mul (a * b) p
  g1mul_add : ∀ (a b : R) p,
    C.g1mul (a + b) p = C.g1add (C.g1mul a p) (C.g1mul b p)
  g1mul_one : ∀ p, C.g1mul 1 p = p
  g1mul_zero : ∀ p, C.g1mul 0 p = C.g1mul 0 C.g1
  g1zero_add : ∀ p, C.g1add (C.g1mul 0 C.g1) p = p
  g1sub_eq : ∀ p q, C.g1sub p q = C.g1add p (C.g1mul (-1) q)
  g1mul_distrib : ∀ (a : R) p q,
    C.g1mul a (C.g1add p q) = C.g1add (C.g1mul a p) (C.g1mul a q)
  g1mul_g_inj : ∀ a b : R, C.g1mul a C.g1 = C.g1mul b C.g1 → a = b
  g2mul_one : C.g2mul 1 C.g2 = C.g2
  g2sub_mul : ∀ a b : R,
    C.g2sub (C.g2mul a C.g2) (C.g2mul b C.g2) = C.g2mul (a - b) C.g2
  pairing_eq : ∀ a b c d : R, a * b = c * d →
    C.pairing (C.g1mul a C.g1) (C.g2mul b C.g2) =
      C.pairing (C.g1mul c C.g1) (C.g2mul d C.g2)

/-- The exponent model of a pairing configuration over `ZMod q`: every
group is the scalar field itself with the generators at 1, and the
pairing is field multiplication.  It satisfies `CurveAxioms` and is used
to instantiate the parametric theorems at concrete inputs. -/
def expCurve (q : ℕ)
    (hash : ZMod q → ZMod q → ZMod q → ZMod q → ZMod q) :
    Curve (ZMod q) (ZMod q) (ZMod q) (ZMod q) where
  g1mul a p := a * p
  g2mul a p := a * p
  g1add p q := p + q
  g2add p q := p + q
  g1sub p q := p - q
  g2sub p q := p - q
  g1 := 1
  g2 := 1
  pairing x y := x * y
  fiat_shamir_hash := hash

/-- Concrete witness back-end: exponent model over `ZMod 5` with a
constant Fiat-Shamir challenge of 1. -/
def zC : Curve (ZMod 5) (ZMod 5) (ZMod 5) (ZMod 5) :=
  expCurve 5 fun _ _ _ _ => 1

/-- Cached decidability instance for the non-membership transcript tuple
over `ZMod 5`, pre-registered so that instance search on the `queryzk`
result type stays small. -/
instance : DecidableEq (ZMod 5 × ZMod 5 × ZMod 5 × ZMod 5 × ZMod 5) :=
  inferInstance

/-- Cached decidability instance for optional transcripts over `ZMod 5`. -/
instance :
    DecidableEq (Option (ZMod 5 × ZMod 5 × ZMod 5 × ZMod 5 × ZMod 5)) :=
  inferInstance

/-- Cached decidability instance for the `queryzk` result tuple over
`ZMod 5`. -/
instance : DecidableEq (ZMod 5 × ZMod 5 × Option (ZMod 5) ×
    Option (ZMod 5 × ZMod 5 × ZMod 5 × ZMod 5 × ZMod 5)) :=
  inferInstance

/-- BLS12-381 base field modulus (the hacspec `Fp` modulus). -/
def pBLS : ℕ :=
  0x1a0111ea397fe69a4b1ba7b6434bacd764774b84f38512bf6730d2a0f6b0f6241eabfffeb153ffffb9feffffffffaaab

/-- BLS12-381 scalar field modulus (the hacspec `Scalar` modulus). -/
def rBLS : ℕ :=
  0x73eda753299d7d483339d80809a1d80553bda402fffe5bfeffffffff00000001

/-- hacspec `Fp`, the 48-byte base field of the spec back-end. -/
abbrev FpB := ZMod pBLS

/-- A hacspec `G1` point: affine coordinates plus an infinity flag. -/
abbrev G1B := FpB × FpB × Bool

/-- hacspec `Scalar`, the scalar field of the spec back-end. -/
abbrev ScalarB := ZMod rBLS

/-- Big-endian byte encoding of a natural number in `len` bytes, as
hacspec `to_byte_seq_be` produces for a `len`-byte field element. -/
def natToBytesBE (len n : ℕ) : List ℕ :=
  (List.range len).map fun i => n / 256 ^ (len - 1 - i) % 256

/-- `g1_to_byte_seq` (curve.rs 56-68, identical to
`g1_to_byte_seq_verifiable`, lib.rs 536-548): the 48 big-endian bytes of
the x-coordinate, then of the y-coordinate, then one infinity byte that
is 1 when the flag is set and 0 otherwise. -/
def g1_to_byte_seq (g : G1B) : List ℕ :=
  natToBytesBE 48 g.1.val ++ natToBytesBE 48 g.2.1.val ++
    [if g.2.2 then 1 else 0]

/-- The fixed BLS12-381 `G1` generator constant (lib.rs 490-493,
curve.rs 107-110). -/
def g1B : G1B :=
  (0x17f1d3a73197d7942695638c4fa9ac0fc3688c4f9774b905a14e3a3f171bac586c55e83ff97a1aeffb3af00adb22c6bb,
   0x08b3f481e3aaa0f1a09e30ed741d8ae4fcf5e095d5d00af600db18cb2c04b3edd03cc744a2888ae40caa232946c5e7e1,
   false)

/-- hacspec `Scalar::from_byte_seq_be`: big-endian bytes interpreted as a
natural number, reduced into the scalar field. -/
def from_byte_seq_be (bytes : List ℕ) : ScalarB :=
  ((bytes.foldl (fun acc b => acc * 256 + b) 0 : ℕ) : ScalarB)

/-- `fiat_shamir_hash_verifiable` (lib.rs 550-562), the spec back-end
Fiat-Shamir hash of the protocol: SHA-256 — abstracted here as the
function argument `sha`, since the hash primitive is an external
collaborator — over the source's concatenation of the five point
encodings, interpreted big-endian as a scalar. -/
def fiat_shamir_hash_verifiable (sha : List ℕ → List ℕ)
    (z n1 n2 h : G1B) : ScalarB :=
  let g := g1_to_byte_seq g1B
  let hb := g1_to_byte_seq h
  let zb := g1_to_byte_seq z
  let n1b := g1_to_byte_seq n1
  let n2b := g1_to_byte_seq n2
  let bytes := g ++ hb ++ zb ++ n1b ++ n2b
  from_byte_seq_be (sha bytes)

/-- Modelled from the spec: `encode(P)` for `P = (x, y, inf)` is the
big-endian bytes of x, then of y, then one byte 0x01 if inf is set else
0x00. -/
def encodeSpec (p : G1B) : List ℕ :=
  natToBytesBE 48 p.1.val ++
    (natToBytesBE 48 p.2.1.val ++ [if p.2.2 then 1 else 0])

/-- Modelled from the spec: SHA-256 of
`encode(g1) ‖ encode(h) ‖ encode(z) ‖ encode(n1) ‖ encode(n2)`
interpreted as a big-endian integer reduced mod the scalar field
order. -/
def fiat_shamir_hash_specmodel (sha : List ℕ → List ℕ)
    (z n1 n2 h : G1B) : ScalarB :=
  (((sha (encodeSpec g1B ++ (encodeSpec h ++ (encodeSpec z ++
        (encodeSpec n1 ++ encodeSpec n2))))).foldl
      (fun acc b => acc * 256 + b) 0 % rBLS : ℕ) : ScalarB)

/-! Polynomial-kernel lemmas. -/

section PolyLemmas

variable {R : Type} [CommRing R]

theorem foldl_add_eq_sum (h : ℕ → R) (n : ℕ) (z : R) :
    (List.range n).foldl (fun acc i => acc + h i) z
      = z + ∑ i ∈ Finset.range n, h i := by
  induction n with
  | zero => simp
  | succ n ih =>
    rw [List.range_succ, List.foldl_append, ih, Finset.sum_range_succ]
    simp [add_assoc]

theorem foldl_ite_add_eq_sum (P : ℕ → Prop) [DecidablePred P] (h : ℕ → R)
    (n : ℕ) (z : R) :
    (List.range n).foldl (fun acc i => if P i then acc + h i else acc) z
      = z + ∑ i ∈ Finset.range n, if P i then h i else 0 := by
  induction n with
  | zero => simp
  | succ n ih =>
    rw [List.range_succ, List.foldl_append, ih, Finset.sum_range_succ]
    by_cases hP : P n <;> simp [hP, add_assoc]

theorem getD_eq_getElem {α : Type} (l : List α) (i : ℕ) (d : α)
    (h : i < l.length) : l.getD i d = l[i] := by
  rw [List.getD_eq_getElem?_getD, List.getElem?_eq_getElem h]
  rfl

theorem getD_zero_eq_headD {α : Type} (l : List α) (d : α) :
    l.getD 0 d = l.headD d := by
  cases l <;> rfl

theorem applyP_eq_sum (p : List R) (x : R) :
    applyP p x
      = ∑ i ∈ Finset.range p.length,
          p.getD (p.length - 1 - i) 0 * x ^ i := by
  rw [applyP,
    foldl_add_eq_sum (fun i => p.getD (p.length - 1 - i) 0 * scalar_pow x i)]
  simp [scalar_from_literal, scalar_pow]

theorem applyP_eq_sum_rev (p : List R) (x : R) :
    applyP p x
      = ∑ i ∈ Finset.range p.length,
          p.getD i 0 * x ^ (p.length - 1 - i) := by
  rw [applyP_eq_sum]
  conv_rhs => rw [← Finset.sum_range_reflect]
  refine Finset.sum_congr rfl fun i hi => ?_
  rw [Finset.mem_range] at hi
  congr 2
  omega

theorem applyP_nil (x : R) : applyP ([] : List R) x = 0 := by
  simp [applyP, scalar_from_literal]

theorem applyP_cons (a : R) (l : List R) (x : R) :
    applyP (a :: l) x = a * x ^ l.length + applyP l x := by
  rw [applyP_eq_sum_rev, applyP_eq_sum_rev, List.length_cons,
    Finset.sum_range_succ']
  simp only [List.getD_cons_succ, List.getD_cons_zero, Nat.add_sub_cancel,
    Nat.sub_zero]
  rw [add_comm]
  congr 1
  refine Finset.sum_congr rfl fun i hi => ?_
  rw [Finset.mem_range] at hi
  congr 2
  omega

theorem applyP_singleton (a x : R) : applyP [a] x = a := by
  rw [show ([a] : List R) = a :: [] from rfl, applyP_cons, applyP_nil]
  simp

theorem applyP_concat (l : List R) (c x : R) :
    applyP (l ++ [c]) x = applyP l x * x + c := by
  induction l with
  | nil => simp [applyP_singleton, applyP_nil]
  | cons a t ih =>
    rw [List.cons_append, applyP_cons, ih, applyP_cons, List.length_append]
    simp only [List.length_cons, List.length_nil]
    ring

theorem applyP_setLast (f : List R) (fl v x : R)
    (hf : f.getLast? = some fl) :
    applyP (f.dropLast ++ [fl - v]) x = applyP f x - v := by
  obtain ⟨ys, rfl⟩ := List.getLast?_eq_some_iff.mp hf
  rw [List.dropLast_concat, applyP_concat, applyP_concat]
  ring

end PolyLemmas

/-! Synthetic-division lemmas for `psiQ` and `create_psi`. -/

section DivisionLemmas

variable {R : Type} [CommRing R]

theorem scanl_headD {α : Type} (f : α → α → α) (r0 : α) (rt : List α)
    (d : α) : (List.scanl f r0 rt).headD d = r0 := by
  cases rt <;> simp [List.scanl_nil, List.scanl_cons]

theorem scanl_ne_nil {α β : Type} (f : β → α → β) (r0 : β) (rt : List α) :
    List.scanl f r0 rt ≠ [] := by
  intro h
  have := List.length_scanl r0 rt (f := f)
  rw [h] at this
  simp at this

theorem scanl_getD_succ {α : Type} (f : α → α → α) (d : α)
    (rt : List α) :
    ∀ (r0 : α) (i : ℕ), i < rt.length →
      (List.scanl f r0 rt).getD (i + 1) d
        = f ((List.scanl f r0 rt).getD i d) (rt.getD i d) := by
  induction rt with
  | nil => intro r0 i h; simp at h
  | cons b t ih =>
    intro r0 i h
    simp only [List.scanl_cons, List.singleton_append]
    cases i with
    | zero =>
      simp only [List.getD_cons_succ, List.getD_cons_zero]
      rw [getD_zero_eq_headD, scanl_headD]
    | succ j =>
      simp only [List.getD_cons_succ]
      exact ih (f r0 b) j (by simpa using h)

theorem scanl_div_identity (x x0 : R) (rt : List R) :
    ∀ r0 : R,
      applyP (r0 :: rt) x
        = applyP ((List.scanl (fun qi ri => qi * x0 + ri) r0 rt).dropLast) x
            * (x - x0)
          + (List.scanl (fun qi ri => qi * x0 + ri) r0 rt).getLastD 0 := by
  induction rt with
  | nil =>
    intro r0
    simp [List.scanl_nil, applyP_singleton, applyP_nil]
  | cons b t ih =>
    intro r0
    have hne := scanl_ne_nil (fun qi ri => qi * x0 + ri) (r0 * x0 + b) t
    obtain ⟨s, hs⟩ := Option.ne_none_iff_exists'.mp
      (fun h => hne (List.getLast?_eq_none_iff.mp h))
    obtain ⟨ys, hys⟩ := List.getLast?_eq_some_iff.mp hs
    have hIH := ih (r0 * x0 + b)
    rw [hys, List.dropLast_concat, List.getLastD_concat] at hIH
    have hlen : ys.length = t.length := by
      have := List.length_scanl (f := fun qi ri => qi * x0 + ri)
        (r0 * x0 + b) t
      rw [hys, List.length_append] at this
      simpa using this
    simp only [List.scanl_cons, List.singleton_append]
    rw [hys, ← List.cons_append, List.dropLast_concat, List.getLastD_concat,
      applyP_cons, applyP_cons, applyP_cons, hlen]
    rw [applyP_cons] at hIH
    simp only [List.length_cons]
    linear_combination hIH

theorem scanl_remainder (x0 : R) (rt : List R) (r0 : R) :
    (List.scanl (fun qi ri => qi * x0 + ri) r0 rt).getLastD 0
      = applyP (r0 :: rt) x0 := by
  have h := scanl_div_identity x0 x0 rt r0
  rw [sub_self, mul_zero, zero_add] at h
  exact h.symm

end DivisionLemmas

/-! Convolution lemmas for `multiply`. -/

section MultiplyLemmas

variable {R : Type} [CommRing R]

theorem multiply_length (f g : List R) :
    (multiply f g).length = f.length + g.length - 1 := by
  simp [multiply]

theorem multiply_getD (f g : List R) (k : ℕ)
    (hk : k < f.length + g.length - 1) :
    (multiply f g).getD k 0
      = ∑ i ∈ Finset.range f.length,
          if i ≤ k ∧ k - i < g.length then f.getD i 0 * g.getD (k - i) 0
          else 0 := by
  have hk' : k < (multiply f g).length := by rw [multiply_length]; exact hk
  rw [getD_eq_getElem _ _ _ hk']
  simp only [multiply, List.getElem_map, List.getElem_range]
  rw [foldl_ite_add_eq_sum (fun i => i ≤ k ∧ k - i < g.length)
    (fun i => f.getD i 0 * g.getD (k - i) 0)]
  simp [scalar_from_literal]

theorem multiply_pair_getD (p : List R) (u v : R) (k : ℕ)
    (hk : k < p.length + 1) :
    (multiply p [u, v]).getD k 0
      = (if k < p.length then p.getD k 0 * u else 0)
        + (if 1 ≤ k ∧ k - 1 < p.length then p.getD (k - 1) 0 * v else 0) := by
  rw [multiply_getD p [u, v] k (by simpa using hk),
    show ([u, v] : List R).length = 2 from rfl]
  have hsplit : ∀ i ∈ Finset.range p.length,
      (if i ≤ k ∧ k - i < 2 then
          p.getD i 0 * ([u, v] : List R).getD (k - i) 0 else 0)
        = (if k = i then p.getD i 0 * u else 0)
          + (if k = i + 1 then p.getD i 0 * v else 0) := by
    intro i _
    by_cases h1 : k = i
    · have hc : i ≤ k ∧ k - i < 2 := by omega
      have hd : k - i = 0 := by omega
      rw [if_pos hc, hd, if_pos h1]
      have hz : (if k = i + 1 then p.getD i 0 * v else 0) = 0 :=
        if_neg (by omega)
      rw [hz, add_zero]
      rfl
    · by_cases h2 : k = i + 1
      · have hc : i ≤ k ∧ k - i < 2 := by omega
        have hd : k - i = 1 := by omega
        rw [if_pos hc, hd, if_neg h1, if_pos h2, zero_add]
        rfl
      · have hc : ¬(i ≤ k ∧ k - i < 2) := by omega
        rw [if_neg hc, if_neg h1, if_neg h2, add_zero]
  rw [Finset.sum_congr rfl hsplit, Finset.sum_add_distrib]
  congr 1
  · rw [Finset.sum_ite_eq]
    simp [Finset.mem_range]
  · cases k with
    | zero => simp
    | succ m =>
      have hsh : ∀ i ∈ Finset.range p.length,
          (if m + 1 = i + 1 then p.getD i 0 * v else 0)
            = (if m = i then p.getD i 0 * v else 0) := by
        intro i _
        by_cases h : m = i <;> simp [h]
      rw [Finset.sum_congr rfl hsh, Finset.sum_ite_eq]
      simp [Finset.mem_range]

theorem applyP_multiply_pair (p : List R) (u v x : R) :
    applyP (multiply p [u, v]) x = applyP p x * (u * x + v) := by
  have hlen : (multiply p [u, v]).length = p.length + 1 := by
    rw [multiply_length]; simp
  rw [applyP_eq_sum_rev, hlen]
  have hterm : ∀ k ∈ Finset.range (p.length + 1),
      (multiply p [u, v]).getD k 0 * x ^ (p.length + 1 - 1 - k)
        = (if k < p.length then p.getD k 0 * u * x ^ (p.length - k) else 0)
          + (if 1 ≤ k ∧ k - 1 < p.length then
              p.getD (k - 1) 0 * v * x ^ (p.length - k) else 0) := by
    intro k hk
    rw [Finset.mem_range] at hk
    rw [multiply_pair_getD p u v k hk]
    have he : p.length + 1 - 1 - k = p.length - k := by omega
    rw [he, add_mul, ite_mul, ite_mul, zero_mul]
  rw [Finset.sum_congr rfl hterm, Finset.sum_add_distrib]
  have hS1 : (∑ k ∈ Finset.range (p.length + 1),
      if k < p.length then p.getD k 0 * u * x ^ (p.length - k) else 0)
      = ∑ k ∈ Finset.range p.length,
          p.getD k 0 * x ^ (p.length - 1 - k) * (u * x) := by
    rw [Finset.sum_range_succ]
    simp only [lt_irrefl, if_false, add_zero]
    refine Finset.sum_congr rfl fun k hk => ?_
    rw [Finset.mem_range] at hk
    rw [if_pos hk]
    have he : p.length - k = p.length - 1 - k + 1 := by omega
    rw [he, pow_succ]
    ring
  have hS2 : (∑ k ∈ Finset.range (p.length + 1),
      if 1 ≤ k ∧ k - 1 < p.length then
        p.getD (k - 1) 0 * v * x ^ (p.length - k) else 0)
      = ∑ k ∈ Finset.range p.length,
          p.getD k 0 * x ^ (p.length - 1 - k) * v := by
    rw [Finset.sum_range_succ']
    have h0 : (if 1 ≤ 0 ∧ 0 - 1 < p.length then
        p.getD (0 - 1) 0 * v * x ^ (p.length - 0) else 0) = 0 := by
      simp
    rw [h0, add_zero]
    refine Finset.sum_congr rfl fun j hj => ?_
    rw [Finset.mem_range] at hj
    have hc : 1 ≤ j + 1 ∧ j + 1 - 1 < p.length := by omega
    rw [if_pos hc]
    have h1 : j + 1 - 1 = j := by omega
    have h2 : p.length - (j + 1) = p.length - 1 - j := by omega
    rw [h1, h2]
    ring
  rw [hS1, hS2, ← Finset.sum_add_distrib, applyP_eq_sum_rev, Finset.sum_mul]
  refine Finset.sum_congr rfl fun i hi => ?_
  ring

end MultiplyLemmas

/-! Set-polynomial lemmas. -/

section PhiLemmas

variable {R : Type} [CommRing R]

theorem phi_fold_length (S : List R) :
    ∀ p : List R,
      (S.foldl (fun phi i =>
          multiply phi [scalar_from_literal 1, scalar_from_literal 0 - i])
        p).length
        = p.length + S.length := by
  induction S with
  | nil => intro p; simp
  | cons j S ih =>
    intro p
    rw [List.foldl_cons, ih, multiply_length]
    simp only [List.length_cons, List.length_nil]
    omega

theorem applyP_phi_fold_root (S : List R) (k : R) :
    ∀ p : List R, applyP p k = 0 ∨ k ∈ S →
      applyP (S.foldl (fun phi i =>
          multiply phi [scalar_from_literal 1, scalar_from_literal 0 - i])
        p) k
        = 0 := by
  induction S with
  | nil =>
    intro p h
    rcases h with h | h
    · simpa using h
    · simp at h
  | cons j S ih =>
    intro p h
    rw [List.foldl_cons]
    apply ih
    rcases h with h | h
    · left
      rw [applyP_multiply_pair, h, zero_mul]
    · rcases List.mem_cons.mp h with rfl | h
      · left
        rw [applyP_multiply_pair]
        have hz : (scalar_from_literal 1 : R) * k
            + (scalar_from_literal 0 - k) = 0 := by
          simp [scalar_from_literal]
        rw [hz, mul_zero]
      · right; exact h

end PhiLemmas

/-! Characterisation of `create_psi`. -/

section PsiLemmas

variable {R : Type} [CommRing R]

theorem getLast?_eq_getLastD {α : Type} (f : List α) (d : α) (hf : f ≠ []) :
    f.getLast? = some (f.getLastD d) := by
  cases hL : f.getLast? with
  | none => exact absurd (List.getLast?_eq_none_iff.mp hL) hf
  | some a => simp [List.getLastD_eq_getLast?, hL]

theorem getD_dropLast {α : Type} (l : List α) (i : ℕ) (d : α)
    (h : i < l.dropLast.length) : l.dropLast.getD i d = l.getD i d := by
  have h' : i < l.length := by
    rw [List.length_dropLast] at h; omega
  rw [getD_eq_getElem _ _ _ h, getD_eq_getElem _ _ _ h',
    List.getElem_dropLast]

theorem getLastD_eq_getD {α : Type} (l : List α) (d : α) :
    l.getLastD d = l.getD (l.length - 1) d := by
  rw [List.getLastD_eq_getLast?, List.getLast?_eq_getElem?,
    List.getD_eq_getElem?_getD]

theorem psiQ_length (r : List R) (x0 : R) : (psiQ r x0).length = r.length := by
  cases r with
  | nil => rfl
  | cons r0 rt => simp [psiQ, List.length_scanl]

theorem create_psi_eq (f : List R) (v x0 : R) (hf : f ≠ []) :
    create_psi f v x0
      = some ((psiQ (f.dropLast ++ [f.getLastD 0 - v]) x0).dropLast) := by
  unfold create_psi
  rw [getLast?_eq_getLastD f 0 hf]

theorem create_psi_length (f : List R) (v x0 : R) (hf : f ≠ []) (Q : List R)
    (hQ : create_psi f v x0 = some Q) : Q.length = f.length - 1 := by
  rw [create_psi_eq f v x0 hf, Option.some_inj] at hQ
  rw [← hQ, List.length_dropLast, psiQ_length, List.length_append,
    List.length_dropLast]
  simp

theorem create_psi_eval (f : List R) (x0 x : R) (hf : f ≠ []) (Q : List R)
    (hQ : create_psi f (applyP f x0) x0 = some Q) :
    applyP Q x * (x - x0) = applyP f x - applyP f x0 := by
  rw [create_psi_eq f _ x0 hf, Option.some_inj] at hQ
  obtain ⟨r0, rt, hr⟩ := List.exists_cons_of_ne_nil
    (l := f.dropLast ++ [f.getLastD 0 - applyP f x0]) (by simp)
  have hre : applyP (f.dropLast ++ [f.getLastD 0 - applyP f x0]) x
      = applyP f x - applyP f x0 :=
    applyP_setLast f _ _ x (getLast?_eq_getLastD f 0 hf)
  have hre0 : applyP (f.dropLast ++ [f.getLastD 0 - applyP f x0]) x0
      = 0 := by
    rw [applyP_setLast f _ _ x0 (getLast?_eq_getLastD f 0 hf), sub_self]
  rw [hr] at hre hre0
  have hdiv := scanl_div_identity x x0 rt r0
  rw [scanl_remainder, hre0, add_zero] at hdiv
  rw [← hQ, hr]
  simp only [psiQ]
  rw [← hdiv, hre]

theorem create_psi_main (f : List R) (v x0 : R) (hf : f ≠ []) :
    ∃ Q, create_psi f v x0 = some Q ∧
      Q.length = f.length - 1 ∧
      (0 < Q.length →
        Q.getD 0 0 = (f.dropLast ++ [f.getLastD 0 - v]).getD 0 0) ∧
      (∀ i, 1 ≤ i → i < Q.length →
        Q.getD i 0
          = Q.getD (i - 1) 0 * x0
            + (f.dropLast ++ [f.getLastD 0 - v]).getD i 0) ∧
      (v = applyP f x0 →
        multiply Q [1, -x0] = f.dropLast ++ [f.getLastD 0 - v]) := by
  have hr_ne : f.dropLast ++ [f.getLastD 0 - v] ≠ [] := by simp
  obtain ⟨r0, rt, hr⟩ := List.exists_cons_of_ne_nil hr_ne
  have hflen : 1 ≤ f.length := List.length_pos.mpr hf
  have hrlen : (f.dropLast ++ [f.getLastD 0 - v]).length = f.length := by
    rw [List.length_append, List.length_dropLast]
    simp only [List.length_cons, List.length_nil]
    omega
  have hrtlen : rt.length = f.length - 1 := by
    rw [hr] at hrlen
    simp only [List.length_cons] at hrlen
    omega
  have hqf : psiQ (f.dropLast ++ [f.getLastD 0 - v]) x0
      = List.scanl (fun qi ri => qi * x0 + ri) r0 rt := by
    rw [hr]
    rfl
  have hqflen :
      (List.scanl (fun qi ri => qi * x0 + ri) r0 rt).length
        = rt.length + 1 := List.length_scanl r0 rt
  have hq : create_psi f v x0
      = some ((List.scanl (fun qi ri => qi * x0 + ri) r0 rt).dropLast) := by
    rw [create_psi_eq f v x0 hf, hqf]
  have hQlen :
      ((List.scanl (fun qi ri => qi * x0 + ri) r0 rt).dropLast).length
        = f.length - 1 := by
    rw [List.length_dropLast, hqflen]
    omega
  have hQget : ∀ i < f.length - 1,
      ((List.scanl (fun qi ri => qi * x0 + ri) r0 rt).dropLast).getD i 0
        = (List.scanl (fun qi ri => qi * x0 + ri) r0 rt).getD i 0 := by
    intro i hi
    exact getD_dropLast _ i 0 (by rw [hQlen]; exact hi)
  have hq0 : (List.scanl (fun qi ri => qi * x0 + ri) r0 rt).getD 0 0 = r0 := by
    rw [getD_zero_eq_headD, scanl_headD]
  have hqrec : ∀ i < rt.length,
      (List.scanl (fun qi ri => qi * x0 + ri) r0 rt).getD (i + 1) 0
        = (List.scanl (fun qi ri => qi * x0 + ri) r0 rt).getD i 0 * x0
          + rt.getD i 0 :=
    fun i hi => scanl_getD_succ (fun qi ri => qi * x0 + ri) 0 rt r0 i hi
  have hqlast : (List.scanl (fun qi ri => qi * x0 + ri) r0 rt).getD
        (rt.length) 0
      = applyP (f.dropLast ++ [f.getLastD 0 - v]) x0 := by
    have h1 := getLastD_eq_getD
      (List.scanl (fun qi ri => qi * x0 + ri) r0 rt) 0
    rw [hqflen] at h1
    simp only [Nat.add_sub_cancel] at h1
    rw [← h1, scanl_remainder, hr]
  refine ⟨_, hq, hQlen, ?_, ?_, ?_⟩
  · intro h0
    rw [hQget 0 (by omega), hq0, hr, List.getD_cons_zero]
  · intro i h1 h2
    rw [hQlen] at h2
    have hi1 : i - 1 < rt.length := by omega
    have hstep := hqrec (i - 1) hi1
    have hi2 : i - 1 + 1 = i := by omega
    rw [hi2] at hstep
    rw [hQget i h2, hstep, hQget (i - 1) (by omega), hr]
    congr 1
    rw [show i = (i - 1) + 1 by omega, List.getD_cons_succ]
    simp only [Nat.add_sub_cancel]
  · intro hv
    have hrem : (List.scanl (fun qi ri => qi * x0 + ri) r0 rt).getD
        (rt.length) 0 = 0 := by
      rw [hqlast, applyP_setLast f _ v x0 (getLast?_eq_getLastD f 0 hf), hv,
        sub_self]
    refine List.ext_getElem ?_ ?_
    · rw [multiply_length, hQlen, hrlen]
      simp only [List.length_cons, List.length_nil]
      omega
    · intro n h1 h2
      rw [← getD_eq_getElem _ n 0 h1, ← getD_eq_getElem _ n 0 h2]
      rw [hrlen] at h2
      have hn1 : n < ((List.scanl (fun qi ri => qi * x0 + ri)
          r0 rt).dropLast).length + 1 := by
        rw [hQlen]; omega
      rw [multiply_pair_getD _ 1 (-x0) n hn1, hQlen]
      by_cases hcase : n < f.length - 1
      · rw [if_pos hcase]
        rcases Nat.eq_zero_or_pos n with rfl | hn0
        · rw [if_neg (by omega), hQget 0 (by omega), hq0, hr,
            List.getD_cons_zero]
          ring
        · rw [if_pos (by omega), hQget n hcase,
            hQget (n - 1) (by omega)]
          have hstep := hqrec (n - 1) (by omega)
          rw [show n - 1 + 1 = n by omega] at hstep
          rw [hstep, hr, show n = (n - 1) + 1 by omega,
            List.getD_cons_succ]
          simp only [Nat.add_sub_cancel]
          ring
      · have hn : n = f.length - 1 := by omega
        rw [if_neg hcase]
        rcases Nat.eq_zero_or_pos n with rfl | hn0
        · rw [if_neg (by omega)]
          have hrt0 : rt.length = 0 := by omega
          have h00 := hrem
          rw [hrt0, hq0] at h00
          rw [hr, List.getD_cons_zero, h00]
          ring
        · rw [if_pos (by omega), hQget (n - 1) (by omega)]
          have hstep := hqrec (n - 1) (by omega)
          rw [show n - 1 + 1 = n by omega] at hstep
          have hlast := hrem
          rw [show rt.length = n by omega] at hlast
          rw [hlast] at hstep
          rw [hr, show n = (n - 1) + 1 by omega, List.getD_cons_succ]
          simp only [Nat.add_sub_cancel]
          have hrtn : rt.getD (n - 1) 0
              = -((List.scanl (fun qi ri => qi * x0 + ri) r0 rt).getD
                  (n - 1) 0 * x0) := by
            linear_combination -hstep
          rw [hrtn]
          ring

end PsiLemmas

/-! Inversion lemmas for the protocol functions. -/

section InversionLemmas

variable {R G1 G2 GT : Type} [CommRing R]

theorem vpop_concat {α : Type} (l : List α) (x : α) :
    vpop (l ++ [x]) = some (x, l) := by
  unfold vpop
  rw [List.getLast?_concat, List.dropLast_concat]

theorem vpop_some {α : Type} {l l' : List α} {x : α}
    (h : vpop l = some (x, l')) : l' = l.dropLast := by
  unfold vpop at h
  cases hL : l.getLast? with
  | none => rw [hL] at h; simp at h
  | some a =>
    rw [hL] at h
    simp only [Option.some_inj, Prod.mk.injEq] at h
    exact h.2.symm

theorem setup_inv (C : Curve R G1 G2 GT) (d : ℕ)
    (pool : List ℕ) (pk : Pk R G1 G2) (rest : List ℕ)
    (h : setup C d pool = some (pk, rest)) :
    ∃ alpha lam : R,
      pk.g_powers = (List.range (d + 1)).map
        (fun i => C.g1mul (scalar_pow alpha (d - i)) C.g1) ∧
      pk.h_powers = (List.range (d + 1)).map
        (fun i => C.g1mul (scalar_pow alpha (d - i)) (C.g1mul lam C.g1)) ∧
      pk.h1 = C.g1mul lam C.g1 ∧
      pk.alpha_g2 = C.g2mul alpha C.g2 := by
  unfold setup at h
  cases h1 : vpop pool with
  | none => rw [h1] at h; simp at h
  | some pr =>
    obtain ⟨r1, pool1⟩ := pr
    simp only [h1] at h
    cases h2 : vpop pool1 with
    | none => simp only [h2] at h; exact absurd h (by simp)
    | some pr2 =>
      obtain ⟨r2, pool2⟩ := pr2
      simp only [h2, Option.some_inj, Prod.mk.injEq] at h
      obtain ⟨hpk, hrest⟩ := h
      refine ⟨scalar_from_literal r1, scalar_from_literal r2, ?_, ?_, ?_, ?_⟩
        <;> rw [← hpk]

theorem sample_coeffs_length (n : ℕ) :
    ∀ (pool rest : List ℕ) (cs : List R),
      sample_coeffs R n pool = some (cs, rest) → cs.length = n := by
  induction n with
  | zero =>
    intro pool rest cs h
    unfold sample_coeffs at h
    simp only [Option.some_inj, Prod.mk.injEq] at h
    rw [← h.1]
    rfl
  | succ m ih =>
    intro pool rest cs h
    unfold sample_coeffs at h
    cases h1 : vpop pool with
    | none => rw [h1] at h; simp at h
    | some pr =>
      obtain ⟨w, pool1⟩ := pr
      simp only [h1] at h
      cases h2 : sample_coeffs R m pool1 with
      | none => simp only [h2] at h; exact absurd h (by simp)
      | some pr2 =>
        obtain ⟨cs1, rest1⟩ := pr2
        simp only [h2, Option.some_inj, Prod.mk.injEq] at h
        rw [← h.1, List.length_cons, ih pool1 rest1 cs1 h2]

theorem commitzk_inv (C : Curve R G1 G2 GT) (pk : Pk R G1 G2)
    (set : List R) (pool : List ℕ) (Cm : G1) (phi phi_hat : List R)
    (rest : List ℕ)
    (h : commitzk C pk set pool = some ((Cm, phi, phi_hat), rest)) :
    phi = set.foldl (fun p i =>
        multiply p [scalar_from_literal 1, scalar_from_literal 0 - i])
      [scalar_from_literal 1] ∧
    phi_hat.length = phi.length ∧
    ∃ cg ch,
      commit_poly C phi pk.g_powers C.g1 = some cg ∧
      commit_poly C phi_hat pk.h_powers pk.h1 = some ch ∧
      Cm = C.g1add cg ch := by
  unfold commitzk at h
  cases hs : sample_coeffs R (set.foldl (fun p i =>
      multiply p [scalar_from_literal 1, scalar_from_literal 0 - i])
    [scalar_from_literal 1]).length pool with
  | none => simp only [hs] at h; exact absurd h (by simp)
  | some pr =>
    obtain ⟨cs, pool1⟩ := pr
    simp only [hs] at h
    cases hc1 : commit_poly C (set.foldl (fun p i =>
        multiply p [scalar_from_literal 1, scalar_from_literal 0 - i])
      [scalar_from_literal 1]) pk.g_powers C.g1 with
    | none => simp only [hc1] at h; exact absurd h (by simp)
    | some cg =>
      simp only [hc1] at h
      cases hc2 : commit_poly C cs pk.h_powers pk.h1 with
      | none => simp only [hc2] at h; exact absurd h (by simp)
      | some ch =>
        simp only [hc2, Option.some_inj, Prod.mk.injEq] at h
        obtain ⟨⟨hCm, hphi, hphih⟩, hrest⟩ := h
        subst hphi
        subst hphih
        refine ⟨rfl, sample_coeffs_length _ _ _ _ hs, cg, ch, hc1, hc2,
          hCm.symm⟩

theorem create_witness_inv (C : Curve R G1 G2 GT) (phi phi_hat : List R)
    (k : R) (pk : Pk R G1 G2) (out : R × R × R × G1)
    (h : create_witness C phi phi_hat k pk = some out) :
    ∃ psi psi_hat w1 w2,
      create_psi phi (applyP phi k) k = some psi ∧
      create_psi phi_hat (applyP phi_hat k) k = some psi_hat ∧
      commit_poly C psi pk.g_powers C.g1 = some w1 ∧
      commit_poly C psi_hat pk.h_powers pk.h1 = some w2 ∧
      out = (k, applyP phi k, applyP phi_hat k, C.g1add w1 w2) := by
  unfold create_witness at h
  cases hp : create_psi phi (applyP phi k) k with
  | none => simp only [hp] at h; exact absurd h (by simp)
  | some psi =>
    simp only [hp] at h
    cases hph : create_psi phi_hat (applyP phi_hat k) k with
    | none => simp only [hph] at h; exact absurd h (by simp)
    | some psi_hat =>
      simp only [hph] at h
      cases hw1 : commit_poly C psi pk.g_powers C.g1 with
      | none => simp only [hw1] at h; exact absurd h (by simp)
      | some w1 =>
        simp only [hw1] at h
        cases hw2 : commit_poly C psi_hat pk.h_powers pk.h1 with
        | none => simp only [hw2] at h; exact absurd h (by simp)
        | some w2 =>
          simp only [hw2, Option.some_inj] at h
          exact ⟨psi, psi_hat, w1, w2, rfl, rfl, hw1, hw2, h.symm⟩

theorem queryzk_mem_inv [DecidableEq R] (C : Curve R G1 G2 GT)
    (pk : Pk R G1 G2) (set : List R) (phi phi_hat : List R) (kj : R)
    (pool : List ℕ)
    (out : R × G1 × Option R × Option (G1 × G1 × G1 × R × R))
    (rest : List ℕ)
    (h : queryzk C pk set phi phi_hat kj pool = some (out, rest))
    (hmem : kj ∈ set) :
    rest = pool ∧
    ∃ W, out = (kj, W, some (applyP phi_hat kj), none) ∧
      create_witness C phi phi_hat kj pk
        = some (kj, applyP phi kj, applyP phi_hat kj, W) := by
  unfold queryzk at h
  cases hw : create_witness C phi phi_hat kj pk with
  | none => simp only [hw] at h; exact absurd h (by simp)
  | some t =>
    obtain ⟨psi, psih, w1, w2, _, _, _, _, hout⟩ :=
      create_witness_inv C phi phi_hat kj pk t hw
    subst hout
    simp only [hw, if_pos hmem, Option.some_inj, Prod.mk.injEq] at h
    obtain ⟨hout2, hrest⟩ := h
    exact ⟨hrest.symm, C.g1add w1 w2, hout2.symm, rfl⟩

theorem queryzk_nonmem_inv [DecidableEq R] (C : Curve R G1 G2 GT)
    (pk : Pk R G1 G2) (set : List R) (phi phi_hat : List R) (kj : R)
    (pool : List ℕ)
    (out : R × G1 × Option R × Option (G1 × G1 × G1 × R × R))
    (rest : List ℕ)
    (h : queryzk C pk set phi phi_hat kj pool = some (out, rest))
    (hmem : kj ∉ set) :
    ∃ W n1 n2 s1 s2,
      out = (kj, W, none,
        some (C.g1add (C.g1mul (applyP phi kj) C.g1)
          (C.g1mul (applyP phi_hat kj) pk.h1), n1, n2, s1, s2)) ∧
      create_witness C phi phi_hat kj pk
        = some (kj, applyP phi kj, applyP phi_hat kj, W) ∧
      schnorr_proof C pk (applyP phi kj) (applyP phi_hat kj) pool
        = some ((n1, n2, s1, s2), rest) := by
  unfold queryzk at h
  cases hw : create_witness C phi phi_hat kj pk with
  | none => simp only [hw] at h; exact absurd h (by simp)
  | some t =>
    obtain ⟨psi, psih, w1, w2, _, _, _, _, hout⟩ :=
      create_witness_inv C phi phi_hat kj pk t hw
    subst hout
    simp only [hw, if_neg hmem] at h
    cases hsp : schnorr_proof C pk (applyP phi kj) (applyP phi_hat kj)
        pool with
    | none => simp only [hsp] at h; exact absurd h (by simp)
    | some pr =>
      obtain ⟨⟨n1, n2, s1, s2⟩, rest1⟩ := pr
      simp only [hsp, Option.some_inj, Prod.mk.injEq] at h
      obtain ⟨hout2, hrest⟩ := h
      subst hrest
      exact ⟨C.g1add w1 w2, n1, n2, s1, s2, hout2.symm, rfl, rfl⟩

theorem schnorr_proof_inv (C : Curve R G1 G2 GT) (pk : Pk R G1 G2)
    (a b : R) (pool : List ℕ) (n1 n2 : G1) (s1 s2 : R) (rest : List ℕ)
    (h : schnorr_proof C pk a b pool = some ((n1, n2, s1, s2), rest)) :
    ∃ r1 r2 : R,
      n1 = C.g1mul r1 C.g1 ∧
      n2 = C.g1mul r2 pk.h1 ∧
      s1 = r1 - C.fiat_shamir_hash (C.g1add (C.g1mul a C.g1)
        (C.g1mul b pk.h1)) n1 n2 pk.h1 * a ∧
      s2 = r2 - C.fiat_shamir_hash (C.g1add (C.g1mul a C.g1)
        (C.g1mul b pk.h1)) n1 n2 pk.h1 * b ∧
      rest = pool.dropLast.dropLast := by
  unfold schnorr_proof at h
  cases h1 : vpop pool with
  | none => rw [h1] at h; simp at h
  | some pr =>
    obtain ⟨w1, pool1⟩ := pr
    simp only [h1] at h
    cases h2 : vpop pool1 with
    | none => simp only [h2] at h; exact absurd h (by simp)
    | some pr2 =>
      obtain ⟨w2, pool2⟩ := pr2
      simp only [h2, Option.some_inj, Prod.mk.injEq] at h
      obtain ⟨⟨hn1, hn2, hs1, hs2⟩, hrest⟩ := h
      refine ⟨scalar_from_literal w1, scalar_from_literal w2,
        hn1.symm, hn2.symm, ?_, ?_, ?_⟩
      · rw [← hn1, ← hn2]
        exact hs1.symm
      · rw [← hn1, ← hn2]
        exact hs2.symm
      · rw [← hrest, vpop_some h2, vpop_some h1]

end InversionLemmas

/-! Normal forms for group computations under the curve axioms: every
`G1` value arising in an honest run is a scalar multiple of the
generator. -/

section NormalForm

variable {R G1 G2 GT : Type} [CommRing R] {C : Curve R G1 G2 GT}

theorem nf_add (ax : CurveAxioms C) (a b : R) :
    C.g1add (C.g1mul a C.g1) (C.g1mul b C.g1) = C.g1mul (a + b) C.g1 :=
  (ax.g1mul_add a b C.g1).symm

theorem nf_sub (ax : CurveAxioms C) (a b : R) :
    C.g1sub (C.g1mul a C.g1) (C.g1mul b C.g1) = C.g1mul (a - b) C.g1 := by
  rw [ax.g1sub_eq, ax.g1mul_mul, neg_one_mul, nf_add ax, ← sub_eq_add_neg]

theorem drop_range' (m : ℕ) : ∀ (s n : ℕ),
    (List.range' s n).drop m = List.range' (s + m) (n - m) := by
  induction m with
  | zero => intro s n; simp
  | succ m ih =>
    intro s n
    cases n with
    | zero => simp
    | succ k =>
      rw [List.range'_succ]
      simp only [List.drop_succ_cons]
      rw [ih (s + 1) k]
      have h1 : s + 1 + m = s + (m + 1) := by omega
      have h2 : k - m = k + 1 - (m + 1) := by omega
      rw [h1, h2]

theorem commit_fold_nf (ax : CurveAxioms C) (d : ℕ) (α μ : R) :
    ∀ (p : List R) (s : ℕ) (acc : R), s + p.length = d + 1 →
      (List.zipWith C.g1mul p ((List.range' s p.length).map
          (fun i => C.g1mul (scalar_pow α (d - i)) (C.g1mul μ C.g1)))).foldl
        C.g1add (C.g1mul acc C.g1)
        = C.g1mul (acc + applyP p α * μ) C.g1 := by
  intro p
  induction p with
  | nil =>
    intro s acc h
    simp only [List.zipWith_nil_left, List.foldl_nil, applyP_nil, zero_mul,
      add_zero]
  | cons a p ih =>
    intro s acc h
    simp only [List.length_cons] at h
    simp only [List.length_cons, List.range'_succ, List.map_cons,
      List.zipWith_cons_cons, List.foldl_cons]
    rw [ax.g1mul_mul, ax.g1mul_mul, nf_add ax, ih (s + 1) _ (by omega),
      applyP_cons]
    have hds : d - s = p.length := by omega
    rw [hds]
    congr 1
    simp only [scalar_pow]
    ring

theorem commit_poly_nf (ax : CurveAxioms C) (d : ℕ) (α μ : R)
    (bp gen : G1) (hbp : bp = C.g1mul μ C.g1) (p : List R)
    (hlen : p.length ≤ d + 1) :
    commit_poly C p ((List.range (d + 1)).map
        (fun i => C.g1mul (scalar_pow α (d - i)) bp)) gen
      = some (C.g1mul (applyP p α * μ) C.g1) := by
  unfold commit_poly
  rw [if_pos (by simpa using hlen)]
  subst hbp
  rw [Option.some_inj]
  rw [List.length_map, List.length_range]
  rw [← List.map_drop, List.range_eq_range', drop_range' (d + 1 - p.length) 0
    (d + 1)]
  have h1 : 0 + (d + 1 - p.length) = d + 1 - p.length := by omega
  have h2 : d + 1 - (d + 1 - p.length) = p.length := by omega
  rw [h1, h2]
  have hinit : C.g1mul (scalar_from_literal 0) gen = C.g1mul 0 C.g1 := by
    rw [show (scalar_from_literal 0 : R) = 0 by
      simp [scalar_from_literal]]
    exact ax.g1mul_zero gen
  rw [hinit, commit_fold_nf ax d α μ p (d + 1 - p.length) 0 (by omega),
    zero_add]

end NormalForm


/-! Indexed characterisation of `commit_poly`, for claim C8. -/

section IndexedCommit

variable {R G1 G2 GT : Type} [CommRing R] {C : Curve R G1 G2 GT}

theorem foldl_congr_mem {A B : Type} (l : List A) :
    ∀ (f g : B → A → B) (init : B),
      (∀ acc, ∀ x ∈ l, f acc x = g acc x) →
      l.foldl f init = l.foldl g init := by
  induction l with
  | nil => intro f g init h; rfl
  | cons a t ih =>
    intro f g init h
    simp only [List.foldl_cons]
    rw [h init a (by simp)]
    exact ih f g _ fun acc x hx => h acc x (by simp [hx])

theorem zip_fold_indexed (C : Curve R G1 G2 GT) :
    ∀ (P : List R) (t : List G1) (init : G1), P.length ≤ t.length →
      (List.zipWith C.g1mul P t).foldl C.g1add init
        = (List.range P.length).foldl
            (fun acc i => C.g1add acc (C.g1mul (P.getD i 0) (t.getD i C.g1)))
            init := by
  intro P
  induction P with
  | nil => intro t init h; rfl
  | cons a P ih =>
    intro t init h
    cases t with
    | nil => simp at h
    | cons b t =>
      simp only [List.zipWith_cons_cons, List.foldl_cons, List.length_cons,
        List.range_succ_eq_map, List.foldl_map, List.getD_cons_zero,
        List.getD_cons_succ]
      rw [ih t _ (by simpa using h)]

theorem commit_poly_indexed (C : Curve R G1 G2 GT) (ax : CurveAxioms C)
    (P : List R) (basis : List G1) (gen : G1)
    (hlen : P.length ≤ basis.length) :
    commit_poly C P basis gen
      = some ((List.range P.length).foldl
          (fun acc i => C.g1add acc (C.g1mul (P.getD i 0)
            (basis.getD (basis.length - P.length + i) C.g1)))
          (C.g1mul 0 C.g1)) := by
  unfold commit_poly
  rw [if_pos hlen, Option.some_inj]
  have hinit : C.g1mul (scalar_from_literal 0) gen = C.g1mul 0 C.g1 := by
    rw [show (scalar_from_literal 0 : R) = 0 by simp [scalar_from_literal]]
    exact ax.g1mul_zero gen
  rw [hinit, zip_fold_indexed C P (basis.drop (basis.length - P.length)) _
    (by rw [List.length_drop]; omega)]
  refine foldl_congr_mem _ _ _ _ fun acc i hi => ?_
  rw [List.mem_range] at hi
  congr 1
  have hdl : i < (basis.drop (basis.length - P.length)).length := by
    rw [List.length_drop]; omega
  have hbl : basis.length - P.length + i < basis.length := by omega
  rw [getD_eq_getElem _ _ _ hdl, getD_eq_getElem _ _ _ hbl,
    List.getElem_drop]

end IndexedCommit

/-! Claim theorems C6, C8, C9, C10 and their witnesses. -/

/-- Claim C6: for every degree `d` and every randomness pool with at least
two words, `setup` pops two words, α first and then λ with `h = λ·g`, and
returns a `Pk` whose bases have length `d + 1` with
`g_powers[i] = α^(d-i)·g`, `h_powers[i] = α^(d-i)·h`, `h1 = h` and
`alpha_g2 = α·g₂`. -/
theorem claim_C6_setup {R G1 G2 GT : Type} [CommRing R]
    (C : Curve R G1 G2 GT) (d : ℕ) (l : List ℕ) (a b : ℕ)
    (pk : Pk R G1 G2) (rest : List ℕ)
    (h : setup C d (l ++ [b, a]) = some (pk, rest)) :
    rest = l ∧
    pk.g_powers.length = d + 1 ∧
    pk.h_powers.length = d + 1 ∧
    pk.h1 = C.g1mul (scalar_from_literal b) C.g1 ∧
    pk.alpha_g2 = C.g2mul (scalar_from_literal a) C.g2 ∧
    ∀ i, i < d + 1 →
      pk.g_powers.getD i C.g1
        = C.g1mul (scalar_pow (scalar_from_literal a) (d - i)) C.g1 ∧
      pk.h_powers.getD i C.g1
        = C.g1mul (scalar_pow (scalar_from_literal a) (d - i)) pk.h1 := by
  unfold setup at h
  rw [show l ++ [b, a] = (l ++ [b]) ++ [a] by simp] at h
  simp only [vpop_concat, Option.some_inj, Prod.mk.injEq] at h
  obtain ⟨hpk, hrest⟩ := h
  have hg : pk.g_powers = (List.range (d + 1)).map fun i =>
      C.g1mul (scalar_pow (scalar_from_literal a) (d - i)) C.g1 := by
    rw [← hpk]
  have hh : pk.h_powers = (List.range (d + 1)).map fun i =>
      C.g1mul (scalar_pow (scalar_from_literal a) (d - i))
        (C.g1mul (scalar_from_literal b) C.g1) := by
    rw [← hpk]
  have hh1 : pk.h1 = C.g1mul (scalar_from_literal b) C.g1 := by
    rw [← hpk]
  refine ⟨hrest.symm, ?_, ?_, hh1, by rw [← hpk], ?_⟩
  · rw [hg]; simp
  · rw [hh]; simp
  · intro i hi
    constructor
    · rw [hg, getD_eq_getElem _ _ _ (by simpa using hi)]
      simp
    · rw [hh, hh1, getD_eq_getElem _ _ _ (by simpa using hi)]
      simp

/-- Witness for claim C6 over the exponent-model back-end `zC`. -/
theorem claim_C6_setup_witness :
    setup zC 2 ([4] ++ [2, 3]) = some (⟨[4, 3, 1], [3, 1, 2], 2, 3⟩, [4]) ∧
    (([4] : List ℕ) = [4] ∧
      ([4, 3, 1] : List (ZMod 5)).length = 2 + 1 ∧
      ([3, 1, 2] : List (ZMod 5)).length = 2 + 1 ∧
      (2 : ZMod 5) = zC.g1mul (scalar_from_literal 2) zC.g1 ∧
      (3 : ZMod 5) = zC.g2mul (scalar_from_literal 3) zC.g2 ∧
      ∀ i, i < 2 + 1 →
        ([4, 3, 1] : List (ZMod 5)).getD i zC.g1
          = zC.g1mul (scalar_pow (scalar_from_literal 3) (2 - i)) zC.g1 ∧
        ([3, 1, 2] : List (ZMod 5)).getD i zC.g1
          = zC.g1mul (scalar_pow (scalar_from_literal 3) (2 - i)) 2) :=
  ⟨by decide, claim_C6_setup zC 2 [4] 3 2 ⟨[4, 3, 1], [3, 1, 2], 2, 3⟩ [4]
    (by decide)⟩

/-- Claim C8: `commit_poly(P, basis, gen)` with `|basis| ≥ |P|` equals the
accumulated sum `Σᵢ P[i] · basis[|basis| - |P| + i]` seeded with the group
identity `0·g`, and the result does not depend on the `gen` argument. -/
theorem claim_C8_commit_poly {R G1 G2 GT : Type} [CommRing R]
    (C : Curve R G1 G2 GT) (ax : CurveAxioms C) (P : List R)
    (basis : List G1) (gen gen1 : G1) (hlen : P.length ≤ basis.length) :
    commit_poly C P basis gen
      = some ((List.range P.length).foldl
          (fun acc i => C.g1add acc (C.g1mul (P.getD i 0)
            (basis.getD (basis.length - P.length + i) C.g1)))
          (C.g1mul 0 C.g1)) ∧
    commit_poly C P basis gen = commit_poly C P basis gen1 :=
  ⟨commit_poly_indexed C ax P basis gen hlen,
    (commit_poly_indexed C ax P basis gen hlen).trans
      (commit_poly_indexed C ax P basis gen1 hlen).symm⟩

/-- Witness for claim C8 over `zC` at a polynomial of length 2 and a basis
of length 3, with two different `gen` seeds. -/
theorem claim_C8_commit_poly_witness :
    CurveAxioms zC ∧ ([1, 2] : List (ZMod 5)).length ≤
      ([4, 3, 1] : List (ZMod 5)).length ∧
    (commit_poly zC ([1, 2] : List (ZMod 5)) [4, 3, 1] 1
      = some ((List.range ([1, 2] : List (ZMod 5)).length).foldl
          (fun acc i => zC.g1add acc (zC.g1mul
            (([1, 2] : List (ZMod 5)).getD i 0)
            (([4, 3, 1] : List (ZMod 5)).getD
              (([4, 3, 1] : List (ZMod 5)).length
                - ([1, 2] : List (ZMod 5)).length + i) zC.g1)))
          (zC.g1mul 0 zC.g1)) ∧
      commit_poly zC ([1, 2] : List (ZMod 5)) [4, 3, 1] 1
        = commit_poly zC ([1, 2] : List (ZMod 5)) [4, 3, 1] 3) :=
  ⟨by constructor <;> decide, by decide,
    claim_C8_commit_poly zC (by constructor <;> decide) [1, 2] [4, 3, 1] 1 3
      (by decide)⟩

/-- Counterexample to claim C9: `commitzk` on the empty set does not fail;
with one random word it returns a commitment to the constant polynomial
`[1]`, so no `InvalidInput` error occurs. -/
theorem claim_C9_counterexample :
    commitzk zC ⟨[4, 3, 1], [3, 1, 2], 2, 3⟩ ([] : List (ZMod 5)) [3]
      = some ((2, [1], [3]), []) := by decide

/-- Amended claim C9: `commitzk` accepts the empty set.  Given one random
word and non-empty bases it succeeds, returning the constant set
polynomial `φ = [1]`, the hiding polynomial built from the single popped
word, and a commitment; no error is raised. -/
theorem claim_C9_empty_set_amended {R G1 G2 GT : Type} [CommRing R]
    (C : Curve R G1 G2 GT) (pk : Pk R G1 G2) (pool : List ℕ)
    (hpool : pool ≠ []) (hg : 1 ≤ pk.g_powers.length)
    (hh : 1 ≤ pk.h_powers.length) :
    ∃ Cm : G1,
      commitzk C pk ([] : List R) pool
        = some ((Cm, [scalar_from_literal 1],
            [scalar_from_literal (pool.getLastD 0)]), pool.dropLast) := by
  have hvp : vpop pool = some (pool.getLastD 0, pool.dropLast) := by
    unfold vpop
    rw [getLast?_eq_getLastD pool 0 hpool]
  have hsam : sample_coeffs R 1 pool
      = some ([scalar_from_literal (pool.getLastD 0)], pool.dropLast) := by
    unfold sample_coeffs
    simp only [hvp]
    rfl
  obtain ⟨cg, hc1⟩ : ∃ cg, commit_poly C [scalar_from_literal 1]
      pk.g_powers C.g1 = some cg := by
    unfold commit_poly
    rw [if_pos (by simpa using hg)]
    exact ⟨_, rfl⟩
  obtain ⟨ch, hc2⟩ : ∃ ch, commit_poly C
      [scalar_from_literal (pool.getLastD 0)] pk.h_powers pk.h1
      = some ch := by
    unfold commit_poly
    rw [if_pos (by simpa using hh)]
    exact ⟨_, rfl⟩
  refine ⟨C.g1add cg ch, ?_⟩
  unfold commitzk
  simp only [List.foldl_nil, List.length_singleton, hsam, hc1, hc2]

/-- Witness for the amended claim C9 over `zC`. -/
theorem claim_C9_empty_set_amended_witness :
    ([3] : List ℕ) ≠ [] ∧
    1 ≤ ([4, 3, 1] : List (ZMod 5)).length ∧
    1 ≤ ([3, 1, 2] : List (ZMod 5)).length ∧
    (∃ Cm : ZMod 5,
      commitzk zC ⟨[4, 3, 1], [3, 1, 2], 2, 3⟩ ([] : List (ZMod 5)) [3]
        = some ((Cm, [scalar_from_literal 1],
            [scalar_from_literal (([3] : List ℕ).getLastD 0)]),
          ([3] : List ℕ).dropLast)) :=
  ⟨by decide, by decide, by decide,
    claim_C9_empty_set_amended zC ⟨[4, 3, 1], [3, 1, 2], 2, 3⟩ [3]
      (by decide) (by decide) (by decide)⟩

/-- Claim C10: when the queried element is in the set, `queryzk` returns
with the randomness pool unchanged; when it is not, exactly the last two
words are removed and every other element is left unchanged. -/
theorem claim_C10_queryzk_pool {R G1 G2 GT : Type} [CommRing R]
    [DecidableEq R] (C : Curve R G1 G2 GT) (pk : Pk R G1 G2)
    (set : List R) (phi phi_hat : List R) (kj : R) (pool : List ℕ)
    (out : R × G1 × Option R × Option (G1 × G1 × G1 × R × R))
    (rest : List ℕ)
    (h : queryzk C pk set phi phi_hat kj pool = some (out, rest)) :
    (kj ∈ set → rest = pool) ∧
    (kj ∉ set → rest = pool.dropLast.dropLast) := by
  constructor
  · intro hmem
    exact (queryzk_mem_inv C pk set phi phi_hat kj pool out rest h hmem).1
  · intro hmem
    obtain ⟨W, n1, n2, s1, s2, _, _, hsp⟩ :=
      queryzk_nonmem_inv C pk set phi phi_hat kj pool out rest h hmem
    obtain ⟨r1, r2, _, _, _, _, hrest⟩ :=
      schnorr_proof_inv C pk _ _ pool n1 n2 s1 s2 rest hsp
    exact hrest

/-- Witness for claim C10 over `zC` on the membership branch. -/
theorem claim_C10_queryzk_pool_witness :
    queryzk zC ⟨[4, 3, 1], [3, 1, 2], 2, 3⟩ ([1, 2] : List (ZMod 5))
        [1, 2, 2] [1, 1, 1] 1 [9, 9]
      = some ((1, 1, some 3, none), [9, 9]) ∧
    (((1 : ZMod 5) ∈ ([1, 2] : List (ZMod 5)) → [9, 9] = [9, 9]) ∧
      ((1 : ZMod 5) ∉ ([1, 2] : List (ZMod 5)) →
        ([9, 9] : List ℕ) = ([9, 9] : List ℕ).dropLast.dropLast)) :=
  ⟨by decide, claim_C10_queryzk_pool zC ⟨[4, 3, 1], [3, 1, 2], 2, 3⟩
    [1, 2] [1, 2, 2] [1, 1, 1] 1 [9, 9] (1, 1, some 3, none) [9, 9]
    (by decide)⟩


/-! Claims C5, C3 and C4. -/

/-- Claim C5: `create_psi(F, F_x0, x0)` replaces the last coefficient of F
by `F[last] - F_x0`, returns the synthetic-division sequence Q with
`Q[0] = R[0]` and `Q[i] = Q[i-1]·x0 + R[i]`, drops the remainder
unconditionally so that `|Q| = |F| - 1`, and when `F_x0 = apply(F, x0)`
the product identity `multiply(Q, [1, -x0]) = R` holds. -/
theorem claim_C5_create_psi {R : Type} [CommRing R] (F : List R)
    (F_x0 x0 : R) (hF : F ≠ []) :
    ∃ Q, create_psi F F_x0 x0 = some Q ∧
      Q.length = F.length - 1 ∧
      (0 < Q.length →
        Q.getD 0 0 = (F.dropLast ++ [F.getLastD 0 - F_x0]).getD 0 0) ∧
      (∀ i, 1 ≤ i → i < Q.length →
        Q.getD i 0
          = Q.getD (i - 1) 0 * x0
            + (F.dropLast ++ [F.getLastD 0 - F_x0]).getD i 0) ∧
      (F_x0 = applyP F x0 →
        multiply Q [1, -x0] = F.dropLast ++ [F.getLastD 0 - F_x0]) :=
  create_psi_main F F_x0 x0 hF

/-- Witness for claim C5 at `F = [1, 2, 3]` over `ZMod 5`, `x0 = 2` and
the honest evaluation `F_x0 = F(2)`. -/
theorem claim_C5_create_psi_witness :
    ([1, 2, 3] : List (ZMod 5)) ≠ [] ∧
    (∃ Q, create_psi ([1, 2, 3] : List (ZMod 5))
        (applyP [1, 2, 3] 2) 2 = some Q ∧
      Q.length = ([1, 2, 3] : List (ZMod 5)).length - 1 ∧
      (0 < Q.length →
        Q.getD 0 0 = (([1, 2, 3] : List (ZMod 5)).dropLast
          ++ [([1, 2, 3] : List (ZMod 5)).getLastD 0
            - applyP [1, 2, 3] 2]).getD 0 0) ∧
      (∀ i, 1 ≤ i → i < Q.length →
        Q.getD i 0
          = Q.getD (i - 1) 0 * 2
            + (([1, 2, 3] : List (ZMod 5)).dropLast
              ++ [([1, 2, 3] : List (ZMod 5)).getLastD 0
                - applyP [1, 2, 3] 2]).getD i 0) ∧
      (applyP ([1, 2, 3] : List (ZMod 5)) 2 = applyP [1, 2, 3] 2 →
        multiply Q [1, -2] = ([1, 2, 3] : List (ZMod 5)).dropLast
          ++ [([1, 2, 3] : List (ZMod 5)).getLastD 0
            - applyP [1, 2, 3] 2])) :=
  ⟨by decide, claim_C5_create_psi ([1, 2, 3] : List (ZMod 5))
    (applyP [1, 2, 3] 2) 2 (by decide)⟩

/-- Claim C3: if `φ(k) = 0` and the prover runs the non-membership branch
honestly — `Z = φ(k)·g + φ̂(k)·h` and a Schnorr proof on
`(φ(k), φ̂(k))` — then `s₁ = r₁`, so `N₁ = s₁·g`, and `verifyzk` rejects
through the non-zero check. -/
theorem claim_C3_false_nonmembership {R G1 G2 GT : Type} [CommRing R]
    [DecidableEq G1] [DecidableEq GT] (C : Curve R G1 G2 GT)
    (pk : Pk R G1 G2) (phi phi_hat : List R) (k : R) (pool : List ℕ)
    (n1 n2 : G1) (s1 s2 : R) (rest : List ℕ) (Cm W : G1)
    (hroot : applyP phi k = 0)
    (h : schnorr_proof C pk (applyP phi k) (applyP phi_hat k) pool
        = some ((n1, n2, s1, s2), rest)) :
    n1 = C.g1mul s1 C.g1 ∧
    verifyzk C pk Cm
      (some (C.g1add (C.g1mul (applyP phi k) C.g1)
        (C.g1mul (applyP phi_hat k) pk.h1), n1, n2, s1, s2)) k W none
      = false := by
  obtain ⟨r1, r2, hn1, hn2, hs1, hs2, hrest⟩ :=
    schnorr_proof_inv C pk _ _ pool n1 n2 s1 s2 rest h
  have hn1s : n1 = C.g1mul s1 C.g1 := by
    rw [hs1, hroot, mul_zero, sub_zero, ← hn1]
  refine ⟨hn1s, ?_⟩
  simp only [verifyzk]
  rw [if_pos hn1s]

/-- Witness for claim C3 over `zC` with `φ = [1, 2, 2]`, `k = 1` a root,
and `φ̂ = [1, 1, 1]`. -/
theorem claim_C3_false_nonmembership_witness :
    applyP ([1, 2, 2] : List (ZMod 5)) 1 = 0 ∧
    schnorr_proof zC ⟨[4, 3, 1], [3, 1, 2], 2, 3⟩
        (applyP ([1, 2, 2] : List (ZMod 5)) 1)
        (applyP ([1, 1, 1] : List (ZMod 5)) 1) [7, 9]
      = some ((4, 4, 4, 4), []) ∧
    ((4 : ZMod 5) = zC.g1mul 4 zC.g1 ∧
      verifyzk zC ⟨[4, 3, 1], [3, 1, 2], 2, 3⟩ 3
        (some (zC.g1add
          (zC.g1mul (applyP ([1, 2, 2] : List (ZMod 5)) 1) zC.g1)
          (zC.g1mul (applyP ([1, 1, 1] : List (ZMod 5)) 1)
            (2 : ZMod 5)), 4, 4, 4, 4)) 1 1 none
        = false) :=
  ⟨by decide, by decide,
    claim_C3_false_nonmembership zC ⟨[4, 3, 1], [3, 1, 2], 2, 3⟩
      [1, 2, 2] [1, 1, 1] 1 [7, 9] 4 4 4 4 [] 3 1 (by decide) (by decide)⟩

/-! Schnorr completeness. -/

section Schnorr

variable {R G1 G2 GT : Type} [CommRing R] {C : Curve R G1 G2 GT}

theorem g1add_four_comm (ax : CurveAxioms C) (x y u v : G1) :
    C.g1add (C.g1add x y) (C.g1add u v)
      = C.g1add (C.g1add x u) (C.g1add y v) := by
  rw [ax.g1add_assoc, ax.g1add_assoc]
  congr 1
  rw [← ax.g1add_assoc, ← ax.g1add_assoc]
  congr 1
  exact ax.g1add_comm y u

theorem schnorr_verify_honest [DecidableEq G1] (ax : CurveAxioms C)
    (pk : Pk R G1 G2) (a b r1 r2 : R) :
    schnorr_verify C pk (C.g1add (C.g1mul a C.g1) (C.g1mul b pk.h1))
      (C.g1mul r1 C.g1) (C.g1mul r2 pk.h1)
      (r1 - C.fiat_shamir_hash
          (C.g1add (C.g1mul a C.g1) (C.g1mul b pk.h1))
          (C.g1mul r1 C.g1) (C.g1mul r2 pk.h1) pk.h1 * a)
      (r2 - C.fiat_shamir_hash
          (C.g1add (C.g1mul a C.g1) (C.g1mul b pk.h1))
          (C.g1mul r1 C.g1) (C.g1mul r2 pk.h1) pk.h1 * b) = true := by
  simp only [schnorr_verify]
  apply decide_eq_true
  rw [ax.g1mul_distrib, ax.g1mul_mul, ax.g1mul_mul, g1add_four_comm ax,
    ← ax.g1mul_add, ← ax.g1mul_add]
  congr 1
  · congr 1
    ring
  · congr 1
    ring

end Schnorr

/-- Claim C4: Schnorr completeness — for every pair of scalars `(a, b)`,
every `pk`, and every pool from which `schnorr_proof` succeeds, the
transcript `(N₁, N₂, s₁, s₂)` on `Z = a·g + b·h` passes
`schnorr_verify`, i.e. `s₁·g + s₂·h + c·Z = N₁ + N₂` holds under the
back-end group axioms. -/
theorem claim_C4_schnorr_completeness {R G1 G2 GT : Type} [CommRing R]
    [DecidableEq G1] (C : Curve R G1 G2 GT) (ax : CurveAxioms C)
    (pk : Pk R G1 G2) (a b : R) (pool : List ℕ) (n1 n2 : G1) (s1 s2 : R)
    (rest : List ℕ)
    (h : schnorr_proof C pk a b pool = some ((n1, n2, s1, s2), rest)) :
    schnorr_verify C pk (C.g1add (C.g1mul a C.g1) (C.g1mul b pk.h1))
      n1 n2 s1 s2 = true := by
  obtain ⟨r1, r2, hn1, hn2, hs1, hs2, _⟩ :=
    schnorr_proof_inv C pk a b pool n1 n2 s1 s2 rest h
  subst hn1
  subst hn2
  subst hs1
  subst hs2
  exact schnorr_verify_honest ax pk a b r1 r2

/-- Witness for claim C4 over `zC` at `(a, b) = (2, 1)`. -/
theorem claim_C4_schnorr_completeness_witness :
    CurveAxioms zC ∧
    schnorr_proof zC ⟨[4, 3, 1], [3, 1, 2], 2, 3⟩ 2 1 [7, 9]
      = some ((4, 4, 2, 1), []) ∧
    schnorr_verify zC ⟨[4, 3, 1], [3, 1, 2], 2, 3⟩
      (zC.g1add (zC.g1mul 2 zC.g1) (zC.g1mul 1 (2 : ZMod 5))) 4 4 2 1
      = true :=
  ⟨by constructor <;> decide, by decide,
    claim_C4_schnorr_completeness zC (by constructor <;> decide)
      ⟨[4, 3, 1], [3, 1, 2], 2, 3⟩ 2 1 [7, 9] 4 4 2 1 [] (by decide)⟩


/-! Honest-run characterisation shared by the completeness claims. -/

section HonestRun

variable {R G1 G2 GT : Type} [CommRing R] {C : Curve R G1 G2 GT}

theorem honest_run_nf (ax : CurveAxioms C) {d : ℕ}
    {pool1 pool2 rest1 rest2 : List ℕ} {pk : Pk R G1 G2}
    {S : List R} {Cm : G1} {phi phi_hat : List R}
    (hsetup : setup C d pool1 = some (pk, rest1))
    (hcommit : commitzk C pk S pool2 = some ((Cm, phi, phi_hat), rest2))
    (hcard : S.length ≤ d) :
    ∃ alpha lam : R,
      pk.h1 = C.g1mul lam C.g1 ∧
      pk.alpha_g2 = C.g2mul alpha C.g2 ∧
      phi.length = S.length + 1 ∧
      phi_hat.length = S.length + 1 ∧
      (∀ k, k ∈ S → applyP phi k = 0) ∧
      Cm = C.g1mul (applyP phi alpha + applyP phi_hat alpha * lam) C.g1 ∧
      (∀ (q : List R) (gen : G1), q.length ≤ d + 1 →
        commit_poly C q pk.g_powers gen
          = some (C.g1mul (applyP q alpha) C.g1)) ∧
      (∀ (q : List R) (gen : G1), q.length ≤ d + 1 →
        commit_poly C q pk.h_powers gen
          = some (C.g1mul (applyP q alpha * lam) C.g1)) := by
  obtain ⟨alpha, lam, hgp, hhp, hh1, hag2⟩ :=
    setup_inv C d pool1 pk rest1 hsetup
  obtain ⟨hphi, hlenhat, cg, ch, hcg, hch, hCm⟩ :=
    commitzk_inv C pk S pool2 Cm phi phi_hat rest2 hcommit
  have hlenphi : phi.length = S.length + 1 := by
    rw [hphi, phi_fold_length S [scalar_from_literal 1]]
    simp only [List.length_singleton]
    omega
  have hcommitg : ∀ (q : List R) (gen : G1), q.length ≤ d + 1 →
      commit_poly C q pk.g_powers gen
        = some (C.g1mul (applyP q alpha) C.g1) := by
    intro q gen hq
    rw [hgp]
    have hres := commit_poly_nf ax d alpha 1 C.g1 gen
      (ax.g1mul_one C.g1).symm q hq
    rw [mul_one] at hres
    exact hres
  have hcommith : ∀ (q : List R) (gen : G1), q.length ≤ d + 1 →
      commit_poly C q pk.h_powers gen
        = some (C.g1mul (applyP q alpha * lam) C.g1) := by
    intro q gen hq
    rw [hhp]
    exact commit_poly_nf ax d alpha lam (C.g1mul lam C.g1) gen rfl q hq
  refine ⟨alpha, lam, hh1, hag2, hlenphi, by rw [hlenhat, hlenphi], ?_,
    ?_, hcommitg, hcommith⟩
  · intro k hk
    rw [hphi]
    exact applyP_phi_fold_root S k _ (Or.inr hk)
  · have h1 := hcommitg phi C.g1 (by omega)
    have h2 := hcommith phi_hat pk.h1 (by omega)
    rw [hcg] at h1
    rw [hch] at h2
    rw [hCm, Option.some_inj.mp h1, Option.some_inj.mp h2, nf_add ax]

end HonestRun

/-- Claim C1: membership completeness — for a non-empty set of distinct
scalars with `|S| ≤ degree`, every `k ∈ S`, and honest `setup`,
`commitzk` and `queryzk` runs that return a membership opening
`(k, W, some v, none)`, the verifier accepts:
`verifyzk(pk, C, none, k, W, some v) = true` through the evaluation
pairing check with `φ(k)` treated as 0. -/
theorem claim_C1_membership_completeness {R G1 G2 GT : Type} [CommRing R]
    [DecidableEq R] [DecidableEq G1] [DecidableEq GT]
    (C : Curve R G1 G2 GT) (ax : CurveAxioms C) (d : ℕ) (S : List R)
    (k : R) (pool1 pool2 pool3 rest1 rest2 rest3 : List ℕ)
    (pk : Pk R G1 G2) (Cm W : G1) (phi phi_hat : List R) (v : R)
    (hS : S ≠ []) (hnd : S.Nodup) (hcard : S.length ≤ d) (hk : k ∈ S)
    (hsetup : setup C d pool1 = some (pk, rest1))
    (hcommit : commitzk C pk S pool2 = some ((Cm, phi, phi_hat), rest2))
    (hquery : queryzk C pk S phi phi_hat k pool3
        = some ((k, W, some v, none), rest3)) :
    verifyzk C pk Cm none k W (some v) = true := by
  obtain ⟨alpha, lam, hh1, hag2, hlphi, hlphih, hroot, hCm, hcg, hch⟩ :=
    honest_run_nf ax hsetup hcommit hcard
  have hphine : phi ≠ [] := by
    intro h0; rw [h0] at hlphi; simp at hlphi
  have hphihne : phi_hat ≠ [] := by
    intro h0; rw [h0] at hlphih; simp at hlphih
  obtain ⟨hrest, W1, hout, hcw⟩ :=
    queryzk_mem_inv C pk S phi phi_hat k pool3 _ rest3 hquery hk
  simp only [Prod.mk.injEq, Option.some_inj, true_and, and_true] at hout
  obtain ⟨hWW, hv⟩ := hout
  subst hWW
  subst hv
  obtain ⟨psi, psih, w1, w2, hpsi, hpsih, hw1, hw2, hwout⟩ :=
    create_witness_inv C phi phi_hat k pk _ hcw
  simp only [Prod.mk.injEq, true_and] at hwout
  have hlpsi : psi.length = phi.length - 1 :=
    create_psi_length phi _ k hphine psi hpsi
  have hlpsih : psih.length = phi_hat.length - 1 :=
    create_psi_length phi_hat _ k hphihne psih hpsih
  have hw1v : w1 = C.g1mul (applyP psi alpha) C.g1 := by
    have hres := hcg psi C.g1 (by omega)
    rw [hw1] at hres
    exact Option.some_inj.mp hres
  have hw2v : w2 = C.g1mul (applyP psih alpha * lam) C.g1 := by
    have hres := hch psih pk.h1 (by omega)
    rw [hw2] at hres
    exact Option.some_inj.mp hres
  have hWval : W = C.g1mul (applyP psi alpha + applyP psih alpha * lam)
      C.g1 := by
    rw [hwout, hw1v, hw2v, nf_add ax]
  have hdiv1 : applyP psi alpha * (alpha - k)
      = applyP phi alpha - applyP phi k :=
    create_psi_eval phi k alpha hphine psi hpsi
  have hdiv2 : applyP psih alpha * (alpha - k)
      = applyP phi_hat alpha - applyP phi_hat k :=
    create_psi_eval phi_hat k alpha hphihne psih hpsih
  have hrootk : applyP phi k = 0 := hroot k hk
  simp only [verifyzk, verifyeval]
  apply decide_eq_true
  rw [hag2, ax.g2sub_mul, hWval, hh1, ax.g1mul_mul,
    show (scalar_from_literal 0 : R) = 0 by simp [scalar_from_literal],
    nf_add ax, hCm, nf_sub ax]
  conv_rhs => rw [show C.g2 = C.g2mul 1 C.g2 from ax.g2mul_one.symm]
  exact ax.pairing_eq _ _ _ _
    (by linear_combination hdiv1 + lam * hdiv2 - hrootk)

/-- Witness for claim C1 over `zC`: degree 2, `S = {1, 2}`, `k = 1`. -/
theorem claim_C1_membership_completeness_witness :
    CurveAxioms zC ∧
    ([1, 2] : List (ZMod 5)) ≠ [] ∧
    ([1, 2] : List (ZMod 5)).Nodup ∧
    ([1, 2] : List (ZMod 5)).length ≤ 2 ∧
    (1 : ZMod 5) ∈ ([1, 2] : List (ZMod 5)) ∧
    setup zC 2 [4, 2, 3] = some (⟨[4, 3, 1], [3, 1, 2], 2, 3⟩, [4]) ∧
    commitzk zC ⟨[4, 3, 1], [3, 1, 2], 2, 3⟩ ([1, 2] : List (ZMod 5))
      [1, 1, 1] = some ((3, [1, 2, 2], [1, 1, 1]), []) ∧
    queryzk zC ⟨[4, 3, 1], [3, 1, 2], 2, 3⟩ ([1, 2] : List (ZMod 5))
      [1, 2, 2] [1, 1, 1] 1 [9, 9]
      = some ((1, 1, some 3, none), [9, 9]) ∧
    verifyzk zC ⟨[4, 3, 1], [3, 1, 2], 2, 3⟩ 3 none 1 1 (some 3) = true :=
  ⟨by constructor <;> decide, by decide, by decide, by decide, by decide,
    by decide, by decide, by decide,
    claim_C1_membership_completeness zC (by constructor <;> decide) 2
      [1, 2] 1 [4, 2, 3] [1, 1, 1] [9, 9] [4] [] [9, 9]
      ⟨[4, 3, 1], [3, 1, 2], 2, 3⟩ 3 1 [1, 2, 2] [1, 1, 1] 3
      (by decide) (by decide) (by decide) (by decide) (by decide)
      (by decide) (by decide)⟩

/-- Claim C2: non-membership completeness — for a non-empty set with
`|S| ≤ degree`, `k ∉ S`, and honest `setup`, `commitzk` and `queryzk`
runs that return a non-membership transcript
`(k, W, none, some (Z, N₁, N₂, s₁, s₂))`, and provided the Fiat-Shamir
challenge `c` satisfies `c·φ(k) ≠ 0`, the verifier accepts: the non-zero
check, the Schnorr check, and the pairing check
`e(C - Z, g₂) = e(W, α·g₂ - k·g₂)` all pass. -/
theorem claim_C2_nonmembership_completeness {R G1 G2 GT : Type}
    [CommRing R] [DecidableEq R] [DecidableEq G1] [DecidableEq GT]
    (C : Curve R G1 G2 GT) (ax : CurveAxioms C) (d : ℕ) (S : List R)
    (k : R) (pool1 pool2 pool3 rest1 rest2 rest3 : List ℕ)
    (pk : Pk R G1 G2) (Cm W Z n1 n2 : G1) (phi phi_hat : List R)
    (s1 s2 : R)
    (hS : S ≠ []) (hnd : S.Nodup) (hcard : S.length ≤ d) (hk : k ∉ S)
    (hsetup : setup C d pool1 = some (pk, rest1))
    (hcommit : commitzk C pk S pool2 = some ((Cm, phi, phi_hat), rest2))
    (hquery : queryzk C pk S phi phi_hat k pool3
        = some ((k, W, none, some (Z, n1, n2, s1, s2)), rest3))
    (hc : C.fiat_shamir_hash Z n1 n2 pk.h1 * applyP phi k ≠ 0) :
    verifyzk C pk Cm (some (Z, n1, n2, s1, s2)) k W none = true := by
  obtain ⟨alpha, lam, hh1, hag2, hlphi, hlphih, hroot, hCm, hcg, hch⟩ :=
    honest_run_nf ax hsetup hcommit hcard
  have hphine : phi ≠ [] := by
    intro h0; rw [h0] at hlphi; simp at hlphi
  have hphihne : phi_hat ≠ [] := by
    intro h0; rw [h0] at hlphih; simp at hlphih
  obtain ⟨W1, n1x, n2x, s1x, s2x, hout, hcw, hsp⟩ :=
    queryzk_nonmem_inv C pk S phi phi_hat k pool3 _ rest3 hquery hk
  simp only [Prod.mk.injEq, Option.some_inj, true_and] at hout
  obtain ⟨hWW, hZ, hn1x, hn2x, hs1x, hs2x⟩ := hout
  subst hWW
  subst hZ
  subst hn1x
  subst hn2x
  subst hs1x
  subst hs2x
  obtain ⟨psi, psih, w1, w2, hpsi, hpsih, hw1, hw2, hwout⟩ :=
    create_witness_inv C phi phi_hat k pk _ hcw
  simp only [Prod.mk.injEq, true_and] at hwout
  have hlpsi : psi.length = phi.length - 1 :=
    create_psi_length phi _ k hphine psi hpsi
  have hlpsih : psih.length = phi_hat.length - 1 :=
    create_psi_length phi_hat _ k hphihne psih hpsih
  have hw1v : w1 = C.g1mul (applyP psi alpha) C.g1 := by
    have hres := hcg psi C.g1 (by omega)
    rw [hw1] at hres
    exact Option.some_inj.mp hres
  have hw2v : w2 = C.g1mul (applyP psih alpha * lam) C.g1 := by
    have hres := hch psih pk.h1 (by omega)
    rw [hw2] at hres
    exact Option.some_inj.mp hres
  have hWval : W = C.g1mul (applyP psi alpha + applyP psih alpha * lam)
      C.g1 := by
    rw [hwout, hw1v, hw2v, nf_add ax]
  have hdiv1 : applyP psi alpha * (alpha - k)
      = applyP phi alpha - applyP phi k :=
    create_psi_eval phi k alpha hphine psi hpsi
  have hdiv2 : applyP psih alpha * (alpha - k)
      = applyP phi_hat alpha - applyP phi_hat k :=
    create_psi_eval phi_hat k alpha hphihne psih hpsih
  obtain ⟨r1, r2, hn1, hn2, hs1, hs2, hrest⟩ :=
    schnorr_proof_inv C pk _ _ pool3 n1 n2 s1 s2 rest3 hsp
  have hne : ¬(n1 = C.g1mul s1 C.g1) := by
    intro heq
    rw [hn1, hs1] at heq
    have hinj := ax.g1mul_g_inj _ _ heq
    have h0 : C.fiat_shamir_hash (C.g1add (C.g1mul (applyP phi k) C.g1)
        (C.g1mul (applyP phi_hat k) pk.h1)) n1 n2 pk.h1
        * applyP phi k = 0 := by
      linear_combination hinj
    exact hc h0
  have hsv : schnorr_verify C pk (C.g1add (C.g1mul (applyP phi k) C.g1)
      (C.g1mul (applyP phi_hat k) pk.h1)) n1 n2 s1 s2 = true := by
    subst hn1
    subst hn2
    subst hs1
    subst hs2
    exact schnorr_verify_honest ax pk (applyP phi k) (applyP phi_hat k)
      r1 r2
  simp only [verifyzk]
  rw [if_neg hne, hsv]
  simp only [Bool.not_true, Bool.false_eq_true, if_false]
  apply decide_eq_true
  rw [hh1, ax.g1mul_mul, nf_add ax, hCm, nf_sub ax, hag2, ax.g2sub_mul,
    hWval]
  conv_lhs => rw [show C.g2 = C.g2mul 1 C.g2 from ax.g2mul_one.symm]
  exact ax.pairing_eq _ _ _ _
    (by linear_combination -hdiv1 - lam * hdiv2)

/-- Witness for claim C2 over `zC`: degree 2, `S = {1, 2}`, `k = 0`. -/
theorem claim_C2_nonmembership_completeness_witness :
    CurveAxioms zC ∧
    ([1, 2] : List (ZMod 5)) ≠ [] ∧
    ([1, 2] : List (ZMod 5)).Nodup ∧
    ([1, 2] : List (ZMod 5)).length ≤ 2 ∧
    (0 : ZMod 5) ∉ ([1, 2] : List (ZMod 5)) ∧
    setup zC 2 [4, 2, 3] = some (⟨[4, 3, 1], [3, 1, 2], 2, 3⟩, [4]) ∧
    commitzk zC ⟨[4, 3, 1], [3, 1, 2], 2, 3⟩ ([1, 2] : List (ZMod 5))
      [1, 1, 1] = some ((3, [1, 2, 2], [1, 1, 1]), []) ∧
    queryzk zC ⟨[4, 3, 1], [3, 1, 2], 2, 3⟩ ([1, 2] : List (ZMod 5))
      [1, 2, 2] [1, 1, 1] 0 [7, 9]
      = some ((0, 3, none, some (4, 4, 4, 2, 1)), []) ∧
    zC.fiat_shamir_hash 4 4 4 (2 : ZMod 5) * applyP [1, 2, 2] 0 ≠ 0 ∧
    verifyzk zC ⟨[4, 3, 1], [3, 1, 2], 2, 3⟩ 3 (some (4, 4, 4, 2, 1)) 0 3
      none = true :=
  ⟨by constructor <;> decide, by decide, by decide, by decide, by decide,
    by decide, by decide, by decide, by decide,
    claim_C2_nonmembership_completeness zC (by constructor <;> decide) 2
      [1, 2] 0 [4, 2, 3] [1, 1, 1] [7, 9] [4] [] []
      ⟨[4, 3, 1], [3, 1, 2], 2, 3⟩ 3 3 4 4 4 [1, 2, 2] [1, 1, 1] 2 1
      (by decide) (by decide) (by decide) (by decide) (by decide)
      (by decide) (by decide) (by decide)⟩


/-- Claim C7: the spec back-end Fiat-Shamir hash
(`fiat_shamir_hash_verifiable`, the four-point SHA-256 hash the protocol
consumes) equals SHA-256 of
`encode(g1) ‖ encode(h) ‖ encode(z) ‖ encode(n1) ‖ encode(n2)`
interpreted as a big-endian integer reduced mod the scalar field order,
where `encode(P)` for `P = (x, y, inf)` is the big-endian bytes of x,
then of y, then one byte 0x01 if inf is set else 0x00. -/
theorem claim_C7_fiat_shamir_hash (sha : List ℕ → List ℕ)
    (z n1 n2 h : G1B) :
    fiat_shamir_hash_verifiable sha z n1 n2 h
      = fiat_shamir_hash_specmodel sha z n1 n2 h := by
  simp only [fiat_shamir_hash_verifiable, fiat_shamir_hash_specmodel,
    from_byte_seq_be, g1_to_byte_seq, encodeSpec, ZMod.natCast_mod,
    List.append_assoc]

end KZG
